import Mathlib

/-!
# Verification of `Recover_MS_Edge_Open_Tabs_v54.py` (core extraction engine)

A shallow embedding of the core pipeline of the tab-recovery script:
byte→display-char mapping, block location, tag detection, group-name
reconstruction, the tag-occurrence index, URL-candidate finding, the
interleaved-URL confirmer, the tabs cross-confirmer, and the assignment
state machine, followed by theorems settling the specification claims.

Conventions of the embedding:
* A raw byte buffer is a `List Nat` (one entry per byte).
* Python strings are `List Char`.
* Python `str.find(sub, start)` (returning `-1` on failure) is modelled by
  `findSub?` returning `Option Nat`; `str.rfind(sub, a, b)` by `rfindSub?`.
* Python `while`-loops that advance an index are modelled with explicit
  fuel chosen large enough to never be exhausted on the loops the program
  actually runs (each loop advances the index by at least one when the
  needle is non-empty).
* `re.finditer` of the URL regex `https?://[^|\s]+` (IGNORECASE) is
  modelled by an explicit left-to-right maximal-munch scanner.
* `bisect.bisect_right`, called by the source only on a sorted list, is
  modelled by its documented behaviour on sorted inputs: the number of
  leading elements `≤ x`.
-/

/-- User-changeable parameter: a tag must occur exactly this many times in the
tag block. -/
def REPEAT_COUNT_REQUIRED : Nat := 5

/-- User-changeable parameter: tag candidate length in characters. -/
def TAG_LENGTH_CHARS : Nat := 19

/-- User-changeable parameter: `group_start = tag_first_start + TAG_LENGTH_CHARS + 4`. -/
def ADVANCE_AFTER_TAG_TO_GROUP_START : Nat := 4

/-- The visible replacement (sentinel) for non-printable bytes. -/
def REPLACEMENT_CHAR_PIPE : Char := '|'

/-- Cap for the `URL_RightContext` column. -/
def URL_RIGHTCONTEXT_MAX_CHARS : Nat := 30000

/-- Source `convert_single_byte_to_display_char`: printable ASCII (32..126) maps to its
character, everything else to the pipe sentinel. -/
def convert_single_byte_to_display_char (byte_value : Nat) : Char :=
  if 32 ≤ byte_value ∧ byte_value ≤ 126 then Char.ofNat byte_value
  else REPLACEMENT_CHAR_PIPE

/-- Does `pat` occur in `l` starting at index `i`?  (Exact substring match,
entirely inside `l`.) -/
def matchesAt {α : Type} [DecidableEq α] (l pat : List α) (i : Nat) : Prop :=
  i + pat.length ≤ l.length ∧ (l.drop i).take pat.length = pat

instance {α : Type} [DecidableEq α] (l pat : List α) (i : Nat) :
    Decidable (matchesAt l pat i) := by
  unfold matchesAt; infer_instance

/-- Auxiliary linear scan for `findSub?`: try indices `i, i+1, ...` while fuel
lasts. -/
def findFromAux {α : Type} [DecidableEq α] (l pat : List α) : Nat → Nat → Option Nat
  | _, 0 => none
  | i, k + 1 => if matchesAt l pat i then some i else findFromAux l pat (i + 1) k

/-- Model of Python `text.find(sub, start)`: the least `i ≥ start` at which
`sub` occurs in `text` (`none` when there is no occurrence, matching `-1`).
Like Python, a start past the end of the text finds nothing, and the empty
needle matches at `start` itself. -/
def findSub? {α : Type} [DecidableEq α] (l pat : List α) (start : Nat) : Option Nat :=
  if start ≤ l.length then findFromAux l pat start (l.length + 1 - start) else none

/-- Model of Python `text.rfind(sub, a, b)`: the greatest `i ≥ a` with
`i + |sub| ≤ b` at which `sub` occurs in `text` (`none` for `-1`). -/
def rfindSub? {α : Type} [DecidableEq α] (l pat : List α) (a b : Nat) : Option Nat :=
  ((List.range (l.length + 1)).filter
    (fun i => a ≤ i && i + pat.length ≤ b && matchesAt l pat i)).getLast?

/-- Source `find_non_overlapping_positions_in_text`, inner loop: find from `start_idx`,
append, resume at `found + len(substring)`.  Fuel bounds the iteration count;
`length + 1` is enough for every non-empty needle. -/
def find_non_overlapping_aux {α : Type} [DecidableEq α]
    (full_text substring : List α) : Nat → Nat → List Nat
  | _, 0 => []
  | start_idx, k + 1 =>
    match findSub? full_text substring start_idx with
    | none => []
    | some found => found :: find_non_overlapping_aux full_text substring
        (found + substring.length) k

/-- Source `find_non_overlapping_positions_in_text`: all non-overlapping start indices
of `substring` within `full_text`, advancing by `len(substring)` after each
match. -/
def find_non_overlapping_positions_in_text {α : Type} [DecidableEq α]
    (full_text substring : List α) : List Nat :=
  find_non_overlapping_aux full_text substring 0 (full_text.length + 1)

/-- Source `build_pipe_interleaved_text_for_url`: `""` for the empty string, otherwise
a pipe, then the characters separated by pipes, then a trailing pipe. -/
def build_pipe_interleaved_text_for_url (url_text : List Char) : List Char :=
  match url_text with
  | [] => []
  | _ => REPLACEMENT_CHAR_PIPE :: (url_text.intersperse REPLACEMENT_CHAR_PIPE)
      ++ [REPLACEMENT_CHAR_PIPE]

/-- Source `build_pipe_interleaved_text_for_group_name` (same construction as for
URLs). -/
def build_pipe_interleaved_text_for_group_name (group_name : List Char) : List Char :=
  match group_name with
  | [] => []
  | _ => REPLACEMENT_CHAR_PIPE :: (group_name.intersperse REPLACEMENT_CHAR_PIPE)
      ++ [REPLACEMENT_CHAR_PIPE]

/-- Source `find_earliest_lowercase_http_position_in_bytes`: earliest index of
`b"http://"` or `b"https://"` in the byte buffer, or its length if neither is
present. -/
def find_earliest_lowercase_http_position_in_bytes (byte_buffer : List Nat) : Nat :=
  let pos_http := findSub? byte_buffer [104, 116, 116, 112, 58, 47, 47] 0
  let pos_https := findSub? byte_buffer [104, 116, 116, 112, 115, 58, 47, 47] 0
  match pos_http, pos_https with
  | some p, some q => min p q
  | some p, none => p
  | none, some q => q
  | none, none => byte_buffer.length

/-! ## The URL regex `https?://[^|\s]+` (IGNORECASE), as a scanner -/

/-- The ASCII whitespace characters matched by Python's `\s` (the display text
contains only ASCII, so the Unicode cases cannot arise). -/
def isPySpace (c : Char) : Bool :=
  c = ' ' || c = '\t' || c = '\n' || c = '\x0b' || c = '\x0c' || c = '\r'

/-- A character allowed in the URL body: neither the pipe sentinel nor
whitespace (`[^|\s]`). -/
def isUrlBodyChar (c : Char) : Bool :=
  !(c = REPLACEMENT_CHAR_PIPE) && !(isPySpace c)

/-- Case-insensitive occurrence of `pat` in `l` at index `i` (ASCII folding,
as `re.IGNORECASE` does on this pattern). -/
def matchesCIAt (l pat : List Char) (i : Nat) : Prop :=
  i + pat.length ≤ l.length ∧ ((l.drop i).take pat.length).map Char.toLower = pat

instance (l pat : List Char) (i : Nat) : Decidable (matchesCIAt l pat i) := by
  unfold matchesCIAt; infer_instance

/-- Length of the scheme part (`https?://`, IGNORECASE) matched at `i`:
8 when the greedy optional `s` succeeds, 7 when it is dropped, `none` when the
scheme does not match at `i`. -/
def schemeLenAt (t : List Char) (i : Nat) : Option Nat :=
  if matchesCIAt t ['h', 't', 't', 'p'] i then
    if matchesCIAt t ['s'] (i + 4) ∧ matchesAt t [':', '/', '/'] (i + 5) then some 8
    else if matchesAt t [':', '/', '/'] (i + 4) then some 7
    else none
  else none

/-- Length of the whole regex match at `i`: scheme plus a maximal non-empty run
of body characters (`none` when the regex does not match at `i`). -/
def urlMatchLenAt (t : List Char) (i : Nat) : Option Nat :=
  match schemeLenAt t i with
  | none => none
  | some sl =>
    let bl := ((t.drop (i + sl)).takeWhile isUrlBodyChar).length
    if bl = 0 then none else some (sl + bl)

/-- The `re.finditer` scanner: walk left to right, emit each maximal match
`(start, end, text)` and resume after it.  Fuel `t.length` suffices since the
position strictly increases at every step. -/
def findUrlMatchesAux (t : List Char) : Nat → Nat → List (Nat × Nat × List Char)
  | _, 0 => []
  | i, k + 1 =>
    if t.length ≤ i then []
    else
      match urlMatchLenAt t i with
      | some L => (i, i + L, (t.drop i).take L) :: findUrlMatchesAux t (i + L) k
      | none => findUrlMatchesAux t (i + 1) k

/-- All matches of the URL regex in `t`, in order. -/
def findUrlMatches (t : List Char) : List (Nat × Nat × List Char) :=
  findUrlMatchesAux t 0 t.length

/-! ## Data model -/

/-- A detected tag candidate as appended by the tag-detection loop:
`{"SessionTabGroupTag", "PositionsRelInBlock", "TagFirstPosAbs"}`. -/
structure TagEntry where
  sessionTabGroupTag : List Char
  positionsRelInBlock : List Nat
  tagFirstPosAbs : Nat
  deriving DecidableEq, Repr

/-- A reconstructed tab group as appended by the name-reconstruction loop:
`{"SessionTabGroupTag", "GroupSpaced", "SessionTabGroup", "TagFirstPosAbs",
"GroupStartAbs", "GroupEndAbs"}`. -/
structure GroupEntry where
  sessionTabGroupTag : List Char
  groupSpaced : List Char
  sessionTabGroup : List Char
  tagFirstPosAbs : Nat
  groupStartAbs : Nat
  groupEndAbs : Nat
  deriving DecidableEq, Repr

/-- A confirmed interleaved URL record, as the tuple
`(simple_start, simple_end, canonical_url_used, interleaved_start,
interleaved_end, raw_url_original)`. -/
structure ConfirmedRec where
  simpleStart : Nat
  simpleEnd : Nat
  canonicalUrl : List Char
  interleavedStart : Nat
  interleavedEnd : Nat
  rawUrl : List Char
  deriving DecidableEq, Repr

/-- An assigned URL `(simple_start, simple_end, canonical_url_used,
raw_url_original)` stored under a `(tag, occurrence)` key. -/
structure UrlAssign where
  uStart : Nat
  uEnd : Nat
  canonicalUrl : List Char
  rawUrl : List Char
  deriving DecidableEq, Repr

/-- A produced output row. -/
structure Row where
  sessionTabGroup : List Char
  url : List Char
  urlRaw : List Char
  urlRightContext : List Char
  tagText : List Char
  tagOccurrencePos : Nat
  tagEndPos : Nat
  urlStartPos : Nat
  urlEndPos : Nat
  deriving DecidableEq, Repr

/-- First-match association-list lookup (the dictionaries of the source never
hold two bindings of the same key). -/
def assocLookup {κ β : Type} [DecidableEq κ] (l : List (κ × β)) (k : κ) : Option β :=
  match l with
  | [] => none
  | (k', v) :: rest => if k' = k then some v else assocLookup rest k

/-! ## Pipeline stage 1: display text and block location -/

/-- Source `session_text_with_pipes` (also used for the tabs file): the display text,
one character per byte. -/
def textWithPipes (bytes : List Nat) : List Char :=
  bytes.map convert_single_byte_to_display_char

/-- Source `block_start_abs`: one past the first `}` byte (0x7d = 125), or 0 when the
buffer has no closing brace. -/
def block_start_abs (session_bytes : List Nat) : Nat :=
  match findSub? session_bytes [125] 0 with
  | some first_closing_brace_idx => first_closing_brace_idx + 1
  | none => 0

/-- Source `first_http_abs` for the session buffer. -/
def first_http_abs (session_bytes : List Nat) : Nat :=
  find_earliest_lowercase_http_position_in_bytes session_bytes

/-- Source `session_tab_group_block_text`: the display text of
`session_bytes[block_start_abs:first_http_abs]`, or empty when
`block_start_abs ≥ first_http_abs`. -/
def session_tab_group_block_text (session_bytes : List Nat) : List Char :=
  let bs := block_start_abs session_bytes
  let fh := first_http_abs session_bytes
  if bs < fh then
    ((session_bytes.drop bs).take (fh - bs)).map convert_single_byte_to_display_char
  else []

/-! ## Pipeline stage 2: tag detection -/

/-- The three-pipe prefix required of a tag candidate. -/
def triplePipe : List Char := ['|', '|', '|']

/-- The tag-detection loop over candidate start offsets, threading the
`seen_candidates` set.  At each offset: skip unless the three characters there
are `|||`; skip candidates already seen; otherwise count the candidate's
non-overlapping occurrences in the block and keep it iff the count is exactly
`REPEAT_COUNT_REQUIRED`. -/
def detectTagsAux (block_text : List Char) (bs : Nat) :
    List Nat → List (List Char) → List TagEntry
  | [], _ => []
  | rel_pos :: rest, seen =>
    if (block_text.drop rel_pos).take 3 ≠ triplePipe then
      detectTagsAux block_text bs rest seen
    else
      let candidate := (block_text.drop rel_pos).take TAG_LENGTH_CHARS
      if candidate ∈ seen then detectTagsAux block_text bs rest seen
      else
        let pos_list_rel := find_non_overlapping_positions_in_text block_text candidate
        if pos_list_rel.length = REPEAT_COUNT_REQUIRED then
          { sessionTabGroupTag := candidate
            positionsRelInBlock := pos_list_rel
            tagFirstPosAbs := bs + pos_list_rel.headD 0 } ::
            detectTagsAux block_text bs rest (candidate :: seen)
        else detectTagsAux block_text bs rest (candidate :: seen)

/-- All tag candidates accepted from a block (the candidate loop runs over
`range(0, max(0, len(block_text) - TAG_LENGTH_CHARS + 1))`). -/
def detectTags (block_text : List Char) (bs : Nat) : List TagEntry :=
  detectTagsAux block_text bs
    (List.range (block_text.length + 1 - TAG_LENGTH_CHARS)) []

/-- The detected tag entries of a session buffer (empty when the block text is
empty, mirroring the `if session_tab_group_block_text:` guard). -/
def detectedEntries (session_bytes : List Nat) : List TagEntry :=
  let block_text := session_tab_group_block_text session_bytes
  if block_text = [] then []
  else detectTags block_text (block_start_abs session_bytes)

/-! ## Pipeline stage 3: group-name reconstruction -/

/-- Every other character, starting at index 0 (Python `s[0::2]`). -/
def everyOtherChar : List Char → List Char
  | [] => []
  | [c] => [c]
  | c :: _ :: rest => c :: everyOtherChar rest

/-- Python `str.strip()`: drop leading and trailing whitespace. -/
def pyStrip (s : List Char) : List Char :=
  ((s.dropWhile isPySpace).reverse.dropWhile isPySpace).reverse

/-- The backward scan `while scan_idx >= 0: if full_text[scan_idx] != '|': ...`:
the greatest index `< k` holding a non-pipe character (characters past the end
of the text, which the source never touches, are treated as pipes). -/
def lastNonPipeBefore (full_text : List Char) : Nat → Option Nat
  | 0 => none
  | k + 1 =>
    if full_text.getD k ' ' ≠ REPLACEMENT_CHAR_PIPE then some k
    else lastNonPipeBefore full_text k

/-- The body of the reconstruction loop for one detected entry, following the
source line by line; `none` mirrors the `continue` statements (entry
discarded).  Python's possibly-negative `second_rel - 44` is an `Int` here. -/
def reconstructGroup (full_text block_text : List Char) (bs : Nat)
    (ent : TagEntry) : Option GroupEntry :=
  if ent.positionsRelInBlock.length < 2 then none
  else
    let second_rel := ent.positionsRelInBlock.getD 1 0
    let first_abs := ent.tagFirstPosAbs
    let group_spaced_start_abs :=
      first_abs + TAG_LENGTH_CHARS + ADVANCE_AFTER_TAG_TO_GROUP_START
    let presumptive_dollar_rel : Int := (second_rel : Int) - 44
    let presumptive_dollar_rel' : Nat :=
      if presumptive_dollar_rel < 0 then
        let search_left_rel := second_rel - 80
        match rfindSub? block_text ['$'] search_left_rel second_rel with
        | some found => found
        | none => second_rel - 44
      else presumptive_dollar_rel.toNat
    let presumptive_dollar_abs := bs + presumptive_dollar_rel'
    match lastNonPipeBefore full_text presumptive_dollar_abs with
    | none => none
    | some group_spaced_end_abs =>
      -- the source also tests `group_spaced_start_abs < 0`, which can never
      -- hold (the offset is a sum of non-negative quantities), so only the
      -- live comparison is kept
      if group_spaced_start_abs > group_spaced_end_abs then none
      else
        let group_spaced_text :=
          (full_text.drop group_spaced_start_abs).take
            (group_spaced_end_abs + 1 - group_spaced_start_abs)
        some
          { sessionTabGroupTag := ent.sessionTabGroupTag
            groupSpaced := group_spaced_text
            sessionTabGroup := pyStrip (everyOtherChar group_spaced_text)
            tagFirstPosAbs := first_abs
            groupStartAbs := group_spaced_start_abs
            groupEndAbs := group_spaced_end_abs }

/-- Source `session_tags_and_groups` after reconstruction and the final sort by
`TagFirstPosAbs`. -/
def sessionTagsAndGroups (session_bytes : List Nat) : List GroupEntry :=
  let block_text := session_tab_group_block_text session_bytes
  if block_text = [] then []
  else
    ((detectTags block_text (block_start_abs session_bytes)).filterMap
      (reconstructGroup (textWithPipes session_bytes) block_text
        (block_start_abs session_bytes))).mergeSort
      (fun a b => a.tagFirstPosAbs ≤ b.tagFirstPosAbs)

/-! ## Pipeline stage 4: tag-occurrence index and combined occurrence list -/

/-- Source `tag_to_all_occurrences`: for each reconstructed group, the sorted list of
all non-overlapping occurrences of its tag in the full display text.  The dict
is an association list in insertion order. -/
def tagToAllOccurrences (session_bytes : List Nat) : List (List Char × List Nat) :=
  let full_text := textWithPipes session_bytes
  if sessionTagsAndGroups session_bytes = [] ∨ full_text = [] then []
  else
    (sessionTagsAndGroups session_bytes).map (fun ent =>
      (ent.sessionTabGroupTag,
        (find_non_overlapping_positions_in_text full_text
          ent.sessionTabGroupTag).mergeSort (fun a b => a ≤ b)))

/-- Source `combined_tag_occurrences_all`: the flattened `(pos, tag)` pairs of the
index, sorted by position. -/
def combinedTagOccurrencesAll (session_bytes : List Nat) : List (Nat × List Char) :=
  ((tagToAllOccurrences session_bytes).flatMap (fun tagOccs =>
      tagOccs.2.map (fun pos => (pos, tagOccs.1)))).mergeSort
    (fun a b => a.1 ≤ b.1)

/-- Library `bisect.bisect_right` on the sorted positions list: the number of leading
elements `≤ x` (its documented behaviour on the sorted inputs the source feeds
it). -/
def bisectRight (positions : List Nat) (x : Nat) : Nat :=
  (positions.takeWhile (fun p => p ≤ x)).length

/-- Source `find_first_tag_occurrence_after_abs_bisect`: the first `(pos, tag)` of the
combined list with `pos > position_abs`, or `none` past the end. -/
def find_first_tag_occurrence_after_abs_bisect
    (combined_positions : List Nat) (combined_tags : List (List Char))
    (position_abs : Nat) : Option (Nat × List Char) :=
  let idx := bisectRight combined_positions position_abs
  if h : idx < combined_positions.length then
    some (combined_positions.get ⟨idx, h⟩, combined_tags.getD idx [])
  else none

/-! ## Pipeline stage 5: URL candidates and interleaved confirmation -/

/-- Source `simple_url_matches` for the session text. -/
def simpleUrlMatches (session_bytes : List Nat) : List (Nat × Nat × List Char) :=
  findUrlMatches (textWithPipes session_bytes)

/-- Source `any_simple_url_between(position_a, position_b, url_list)`: does any simple
URL start strictly between the two positions? -/
def any_simple_url_between (position_a position_b : Nat)
    (url_list : List (Nat × Nat × List Char)) : Bool :=
  url_list.any (fun m => position_a < m.1 && m.1 < position_b)

/-- One confirmation attempt for the candidate text `candidate_url`: build the
interleaved form, search it from the simple match's end, and accept unless
another simple URL starts strictly in between.  The empty candidate mirrors the
`if not candidate_url: break` exit. -/
def tryConfirmAttempt (full_text : List Char)
    (url_list : List (Nat × Nat × List Char)) (s e : Nat)
    (candidate_url raw_url : List Char) : Option ConfirmedRec :=
  if candidate_url = [] then none
  else
    let interleaved := build_pipe_interleaved_text_for_url candidate_url
    match findSub? full_text interleaved e with
    | none => none
    | some interleaved_idx =>
      if any_simple_url_between e interleaved_idx url_list then none
      else some
        { simpleStart := s
          simpleEnd := e
          canonicalUrl := candidate_url
          interleavedStart := interleaved_idx
          interleavedEnd := interleaved_idx + interleaved.length
          rawUrl := raw_url }

/-- The two-attempt loop for one simple URL match: first the full matched text,
then (when the first attempt produced nothing) the text with its last character
removed — or the empty string, stopping the loop, when it has at most one
character. -/
def confirmRecordFor (full_text : List Char)
    (url_list : List (Nat × Nat × List Char))
    (m : Nat × Nat × List Char) : Option ConfirmedRec :=
  match tryConfirmAttempt full_text url_list m.1 m.2.1 m.2.2 m.2.2 with
  | some rec => some rec
  | none =>
    tryConfirmAttempt full_text url_list m.1 m.2.1
      (if m.2.2.length > 1 then m.2.2.dropLast else []) m.2.2

/-- Source `confirmed_interleaved_records`: the confirmed records of all simple URL
matches, sorted by interleaved start. -/
def confirmedInterleavedRecords (session_bytes : List Nat) : List ConfirmedRec :=
  let full_text := textWithPipes session_bytes
  let url_list := simpleUrlMatches session_bytes
  (url_list.filterMap (confirmRecordFor full_text url_list)).mergeSort
    (fun a b => a.interleavedStart ≤ b.interleavedStart)

/-! ## Pipeline stage 6: assignment of confirmed URLs to tag occurrences -/

/-- Python `dict.setdefault(key, []).append(v)` on an insertion-ordered association
list. -/
def upsertAppend {κ β : Type} [DecidableEq κ]
    (l : List (κ × List β)) (k : κ) (v : β) : List (κ × List β) :=
  match l with
  | [] => [(k, [v])]
  | (k', vs) :: rest =>
    if k' = k then (k', vs ++ [v]) :: rest else (k', vs) :: upsertAppend rest k v

/-- Source `tag_occurrence_to_assigned_urls`: fold the confirmed records, assigning
each to the first tag occurrence strictly after its interleaved end (records
with no such occurrence are dropped). -/
def tagOccurrenceToAssignedUrls (session_bytes : List Nat) :
    List ((List Char × Nat) × List UrlAssign) :=
  let combined := combinedTagOccurrencesAll session_bytes
  let combined_positions := combined.map (fun x => x.1)
  let combined_tags := combined.map (fun x => x.2)
  (confirmedInterleavedRecords session_bytes).foldl
    (fun acc rec =>
      match find_first_tag_occurrence_after_abs_bisect combined_positions
          combined_tags rec.interleavedEnd with
      | none => acc
      | some (tag_pos, tag_text) =>
        upsertAppend acc (tag_text, tag_pos)
          { uStart := rec.simpleStart
            uEnd := rec.simpleEnd
            canonicalUrl := rec.canonicalUrl
            rawUrl := rec.rawUrl }) []

/-! ## Pipeline stage 7: eligible occurrences (5th occurrence onward) -/

/-- Source `combined_tag_occurrence_list`: for each group with at least five
occurrences of its tag in the full text, every occurrence at or after the
fifth, flattened and sorted by position. -/
def combinedTagOccurrenceList (session_bytes : List Nat) : List (Nat × List Char) :=
  ((sessionTagsAndGroups session_bytes).flatMap (fun ent =>
      let occs := (assocLookup (tagToAllOccurrences session_bytes)
        ent.sessionTabGroupTag).getD []
      if occs.length ≥ 5 then
        let fifth_pos := occs.getD 4 0
        (occs.filter (fun p => p ≥ fifth_pos)).map
          (fun p => (p, ent.sessionTabGroupTag))
      else [])).mergeSort (fun a b => a.1 ≤ b.1)

/-! ## Pipeline stage 8: the emission state machine -/

/-- The Tabs-file cross-confirmation of one candidate row: given the tabs
display text, the tentative group name and the canonical URL, return the final
group name (`"Ungrouped"` when another URL sits between the last interleaved
group name and the URL inside the tabs text). -/
def crossConfirmGroupName (tabs_text tentative_group_name canonical_url : List Char) :
    List Char :=
  match findSub? tabs_text canonical_url 0 with
  | none => tentative_group_name
  | some tab_index =>
    let last_url_before := (findUrlMatches (tabs_text.take tab_index)).getLast?
    let interleaved_group :=
      build_pipe_interleaved_text_for_group_name tentative_group_name
    match rfindSub? tabs_text interleaved_group 0 tab_index with
    | some last_group_interleaved_pos =>
      match last_url_before with
      | none => tentative_group_name
      | some lub =>
        if last_group_interleaved_pos > lub.1 then tentative_group_name
        else ('U' :: 'n' :: 'g' :: 'r' :: 'o' :: 'u' :: 'p' :: 'e' :: ['d'])
    | none =>
      match last_url_before with
      | some _ => ('U' :: 'n' :: 'g' :: 'r' :: 'o' :: 'u' :: 'p' :: 'e' :: ['d'])
      | none => tentative_group_name

/-- The read-only context of the emission loop. -/
structure EmitCtx where
  fullText : List Char
  tabsText : List Char
  tagToGroupName : List (List Char × List Char)
  amap : List ((List Char × Nat) × List UrlAssign)

/-- The mutable state of the emission loop: per-tag consecutive-empty counters,
the finished set, the previously-accepted tag end (`none` while
`first_row_written` is false), and the accepted rows so far. -/
structure EmitState where
  emptyCounts : List (List Char × Nat)
  finishedTags : List (List Char)
  prevAcceptedTagEnd : Option Nat
  rows : List Row

/-- Source `consecutive_empty_count_by_tag[tag]` (the dict is seeded with zeroes for
every tag, so a missing key reads as 0). -/
def countOf (counts : List (List Char × Nat)) (tag : List Char) : Nat :=
  (assocLookup counts tag).getD 0

/-- Source `consecutive_empty_count_by_tag[tag] = n`. -/
def setCount (counts : List (List Char × Nat)) (tag : List Char) (n : Nat) :
    List (List Char × Nat) :=
  match counts with
  | [] => [(tag, n)]
  | (t, c) :: rest =>
    if t = tag then (t, n) :: rest else (t, c) :: setCount rest tag n

/-- Emission of a single assigned URL under one tag occurrence: compute the
final group name (cross-confirming against the tabs text when one was
supplied), then apply the global chronological filter — the first row is always
written; later rows only when `u_start > prev_accepted_tag_end_pos`. -/
def emitOne (ctx : EmitCtx) (tag_text : List Char) (occ_pos tag_end_pos : Nat)
    (st : EmitState) (u : UrlAssign) : EmitState :=
  let tentative_group_name := (assocLookup ctx.tagToGroupName tag_text).getD []
  let final_group_name :=
    if ctx.tabsText = [] then tentative_group_name
    else crossConfirmGroupName ctx.tabsText tentative_group_name u.canonicalUrl
  let row : Row :=
    { sessionTabGroup := final_group_name
      url := u.canonicalUrl
      urlRaw := u.rawUrl
      urlRightContext :=
        if ctx.fullText = [] then []
        else ((ctx.fullText.drop u.uStart).take (occ_pos - u.uStart)).take
          URL_RIGHTCONTEXT_MAX_CHARS
      tagText := tag_text
      tagOccurrencePos := occ_pos
      tagEndPos := tag_end_pos
      urlStartPos := u.uStart
      urlEndPos := u.uEnd }
  match st.prevAcceptedTagEnd with
  | none =>
    { st with rows := st.rows ++ [row], prevAcceptedTagEnd := some tag_end_pos }
  | some prev =>
    if u.uStart > prev then
      { st with rows := st.rows ++ [row], prevAcceptedTagEnd := some tag_end_pos }
    else st

/-- One step of the main emission loop, for one eligible `(occ_pos, tag)`:
skip finished tags; with no assigned URLs bump the consecutive-empty counter
(finishing the tag at 2); otherwise reset the counter and emit the assigned
URLs sorted by plain start. -/
def processOcc (ctx : EmitCtx) (st : EmitState) (occ : Nat × List Char) : EmitState :=
  let occ_pos := occ.1
  let tag_text := occ.2
  if tag_text ∈ st.finishedTags then st
  else
    match assocLookup ctx.amap (tag_text, occ_pos) with
    | none =>
      let c := countOf st.emptyCounts tag_text + 1
      { st with
        emptyCounts := setCount st.emptyCounts tag_text c
        finishedTags :=
          if c ≥ 2 then tag_text :: st.finishedTags else st.finishedTags }
    | some [] =>
      let c := countOf st.emptyCounts tag_text + 1
      { st with
        emptyCounts := setCount st.emptyCounts tag_text c
        finishedTags :=
          if c ≥ 2 then tag_text :: st.finishedTags else st.finishedTags }
    | some assigned_for_occ =>
      let st' := { st with emptyCounts := setCount st.emptyCounts tag_text 0 }
      let tag_end_pos := occ_pos + tag_text.length
      (assigned_for_occ.mergeSort (fun a b => a.uStart ≤ b.uStart)).foldl
        (emitOne ctx tag_text occ_pos tag_end_pos) st'

/-- The main emission loop over the whole eligible occurrence list. -/
def processList (ctx : EmitCtx) (st : EmitState) (occs : List (Nat × List Char)) :
    EmitState :=
  occs.foldl (processOcc ctx) st

/-- The emission context of a run. -/
def emitCtx (session_bytes tabs_bytes : List Nat) : EmitCtx :=
  { fullText := textWithPipes session_bytes
    tabsText := textWithPipes tabs_bytes
    tagToGroupName := (sessionTagsAndGroups session_bytes).map
      (fun e => (e.sessionTabGroupTag, e.sessionTabGroup))
    amap := tagOccurrenceToAssignedUrls session_bytes }

/-- The initial emission state of a run. -/
def initEmitState (session_bytes : List Nat) : EmitState :=
  { emptyCounts := (sessionTagsAndGroups session_bytes).map
      (fun e => (e.sessionTabGroupTag, 0))
    finishedTags := []
    prevAcceptedTagEnd := none
    rows := [] }

/-- Source `produced_rows`: the rows a run emits (an absent tabs file is the empty
byte list, matching the falsy empty `tabs_text_with_pipes`). -/
def producedRows (session_bytes tabs_bytes : List Nat) : List Row :=
  (processList (emitCtx session_bytes tabs_bytes) (initEmitState session_bytes)
    (combinedTagOccurrenceList session_bytes)).rows

/-! ## Basic facts about substring search -/

theorem matchesAt_le_length {α : Type} [DecidableEq α] {l pat : List α} {i : Nat}
    (h : matchesAt l pat i) : i ≤ l.length :=
  le_trans (Nat.le_add_right i pat.length) h.1

theorem findFromAux_eq_some {α : Type} [DecidableEq α] {l pat : List α} :
    ∀ {k i f : Nat}, findFromAux l pat i k = some f →
      i ≤ f ∧ matchesAt l pat f ∧ ∀ q, i ≤ q → q < f → ¬ matchesAt l pat q := by
  intro k
  induction k with
  | zero => intro i f h; simp [findFromAux] at h
  | succ k ih =>
    intro i f h
    by_cases hm : matchesAt l pat i
    · simp [findFromAux, hm] at h
      subst h
      exact ⟨le_refl _, hm, fun q h1 h2 => absurd (lt_of_le_of_lt h1 h2) (lt_irrefl _)⟩
    · simp [findFromAux, hm] at h
      obtain ⟨h1, h2, h3⟩ := ih h
      refine ⟨le_trans (Nat.le_succ i) h1, h2, fun q hq1 hq2 => ?_⟩
      rcases Nat.eq_or_lt_of_le hq1 with rfl | hq1'
      · exact hm
      · exact h3 q hq1' hq2

theorem findFromAux_eq_none {α : Type} [DecidableEq α] {l pat : List α} :
    ∀ {k i : Nat}, findFromAux l pat i k = none →
      ∀ q, i ≤ q → q < i + k → ¬ matchesAt l pat q := by
  intro k
  induction k with
  | zero => intro i _ q h1 h2; omega
  | succ k ih =>
    intro i h q h1 h2
    by_cases hm : matchesAt l pat i
    · simp [findFromAux, hm] at h
    · simp [findFromAux, hm] at h
      rcases Nat.eq_or_lt_of_le h1 with rfl | h1'
      · exact hm
      · exact ih h q h1' (by omega)

theorem findSub?_eq_some {α : Type} [DecidableEq α] {l pat : List α} {s f : Nat}
    (h : findSub? l pat s = some f) :
    s ≤ f ∧ matchesAt l pat f ∧ ∀ q, s ≤ q → q < f → ¬ matchesAt l pat q := by
  unfold findSub? at h
  by_cases hs : s ≤ l.length
  · simp [hs] at h
    exact findFromAux_eq_some h
  · simp [hs] at h

theorem findSub?_eq_none {α : Type} [DecidableEq α] {l pat : List α} {s : Nat}
    (h : findSub? l pat s = none) : ∀ q, s ≤ q → ¬ matchesAt l pat q := by
  unfold findSub? at h
  by_cases hs : s ≤ l.length
  · simp [hs] at h
    intro q h1 hm
    have hq : q ≤ l.length := matchesAt_le_length hm
    exact findFromAux_eq_none h q h1 (by omega) hm
  · intro q h1 hm
    have hq : q ≤ l.length := matchesAt_le_length hm
    omega

theorem findSub?_complete {α : Type} [DecidableEq α] {l pat : List α} {s q : Nat}
    (hq : s ≤ q) (hm : matchesAt l pat q) : ∃ f, findSub? l pat s = some f := by
  cases h : findSub? l pat s with
  | none => exact absurd hm (findSub?_eq_none h q hq)
  | some f => exact ⟨f, rfl⟩

/-- Full characterisation of `findSub?` returning a hit. -/
theorem findSub?_eq_some_iff {α : Type} [DecidableEq α] {l pat : List α} {s f : Nat} :
    findSub? l pat s = some f ↔
      s ≤ f ∧ matchesAt l pat f ∧ ∀ q, s ≤ q → q < f → ¬ matchesAt l pat q := by
  constructor
  · exact findSub?_eq_some
  · rintro ⟨h1, h2, h3⟩
    obtain ⟨f', hf'⟩ := findSub?_complete h1 h2
    obtain ⟨g1, g2, g3⟩ := findSub?_eq_some hf'
    rcases Nat.lt_trichotomy f f' with h | h | h
    · exact absurd h2 (g3 f h1 h)
    · rw [hf', h]
    · exact absurd g2 (h3 f' g1 h)

/-- With no occurrence below `s₂`, searching from `s₁ ≤ s₂` and from `s₂`
coincide. -/
theorem findSub?_eq_of_no_match_below {α : Type} [DecidableEq α]
    {l pat : List α} {s₁ s₂ : Nat} (hle : s₁ ≤ s₂)
    (h : ∀ q, q < s₂ → ¬ matchesAt l pat q) :
    findSub? l pat s₁ = findSub? l pat s₂ := by
  cases h2 : findSub? l pat s₂ with
  | none =>
    cases h1 : findSub? l pat s₁ with
    | none => rfl
    | some f =>
      obtain ⟨g1, g2, _⟩ := findSub?_eq_some h1
      rcases Nat.lt_or_ge f s₂ with hf | hf
      · exact absurd g2 (h f hf)
      · exact absurd g2 (findSub?_eq_none h2 f hf)
  | some f =>
    obtain ⟨g1, g2, g3⟩ := findSub?_eq_some h2
    refine findSub?_eq_some_iff.mpr ⟨le_trans hle g1, g2, fun q hq1 hq2 => ?_⟩
    rcases Nat.lt_or_ge q s₂ with hq | hq
    · exact h q hq
    · exact g3 q hq hq2

/-! ## Facts about `find_non_overlapping_positions_in_text` -/

theorem find_non_overlapping_aux_ge {α : Type} [DecidableEq α]
    {l pat : List α} : ∀ {k s p : Nat},
    p ∈ find_non_overlapping_aux l pat s k → s ≤ p := by
  intro k
  induction k with
  | zero => intro s p h; simp [find_non_overlapping_aux] at h
  | succ k ih =>
    intro s p h
    unfold find_non_overlapping_aux at h
    cases hf : findSub? l pat s with
    | none => simp [hf] at h
    | some f =>
      simp [hf] at h
      rcases h with rfl | h
      · exact (findSub?_eq_some hf).1
      · exact le_trans (le_trans (findSub?_eq_some hf).1
          (Nat.le_add_right f pat.length)) (ih h)

theorem find_non_overlapping_aux_matches {α : Type} [DecidableEq α]
    {l pat : List α} : ∀ {k s p : Nat},
    p ∈ find_non_overlapping_aux l pat s k → matchesAt l pat p := by
  intro k
  induction k with
  | zero => intro s p h; simp [find_non_overlapping_aux] at h
  | succ k ih =>
    intro s p h
    unfold find_non_overlapping_aux at h
    cases hf : findSub? l pat s with
    | none => simp [hf] at h
    | some f =>
      simp [hf] at h
      rcases h with rfl | h
      · exact (findSub?_eq_some hf).2.1
      · exact ih h

theorem find_non_overlapping_aux_pairwise {α : Type} [DecidableEq α]
    {l pat : List α} : ∀ {k s : Nat},
    (find_non_overlapping_aux l pat s k).Pairwise
      (fun a b => a + pat.length ≤ b) := by
  intro k
  induction k with
  | zero => intro s; simp [find_non_overlapping_aux]
  | succ k ih =>
    intro s
    unfold find_non_overlapping_aux
    cases hf : findSub? l pat s with
    | none => simp
    | some f =>
      simp only [List.pairwise_cons]
      refine ⟨fun p hp => ?_, ih⟩
      exact find_non_overlapping_aux_ge hp

/-- Claim C8 (non-overlap of the position finder): any two offsets the finder
returns, in the order returned, are at least the substring's length apart —
so the list never contains `a < b` with `b < a + len(substring)`, i.e. the
offsets are strictly increasing with gaps of at least the substring's length
(strictness being immediate from the gap once the substring is non-empty; for
the empty substring the source's loop never returns a list at all). -/
theorem find_non_overlapping_positions_nonoverlap
    (full_text substring : List Char) :
    (find_non_overlapping_positions_in_text full_text substring).Pairwise
      (fun a b => a + substring.length ≤ b) :=
  find_non_overlapping_aux_pairwise

/-! ## Occurrence transfer between the block slice and the full text (C2) -/

/-- Dropping then taking inside a `drop`/`take` slice is a plain slice of the
underlying list, provided the window fits. -/
theorem slice_shift {α : Type} (full : List α) (bs m j L : Nat)
    (hL : L ≤ m - j) :
    (((full.drop bs).take m).drop j).take L = (full.drop (bs + j)).take L := by
  rw [List.drop_take, List.take_take, List.drop_drop]
  congr 1
  omega

/-- An occurrence inside a `drop`/`take` slice is an occurrence of the whole
text, shifted by the slice's offset. -/
theorem matchesAt_of_slice {α : Type} [DecidableEq α]
    {full block pat : List α} {bs m j : Nat}
    (hb : block = (full.drop bs).take m) (hbs : bs ≤ full.length)
    (h : matchesAt block pat j) : matchesAt full pat (bs + j) := by
  obtain ⟨h1, h2⟩ := h
  subst hb
  have hlen : ((full.drop bs).take m).length = min m (full.length - bs) := by
    simp [List.length_take, List.length_drop]
  rw [hlen] at h1
  refine ⟨by omega, ?_⟩
  rw [← slice_shift full bs m j pat.length (by omega)]
  exact h2

/-- Conversely, an occurrence of the full text that fits inside the slice is
an occurrence of the slice. -/
theorem matchesAt_to_slice {α : Type} [DecidableEq α]
    {full block pat : List α} {bs m j : Nat}
    (hb : block = (full.drop bs).take m) (hfit : j + pat.length ≤ block.length)
    (h : matchesAt full pat (bs + j)) : matchesAt block pat j := by
  obtain ⟨_, h2⟩ := h
  refine ⟨hfit, ?_⟩
  have hlen : block.length = min m (full.length - bs) := by
    simp [hb, List.length_take, List.length_drop]
  rw [hlen] at hfit
  rw [hb, slice_shift full bs m j pat.length (by omega), h2]

/-- A successful find inside the block slice transfers to the full text when
the search windows correspond: the shifted hit is the least full-text hit at or
after the shifted start. -/
theorem findSub?_slice_sync {α : Type} [DecidableEq α]
    {full block pat : List α} {bs m s f : Nat}
    (hb : block = (full.drop bs).take m) (hbs : bs ≤ full.length)
    (h : findSub? block pat s = some f) :
    findSub? full pat (bs + s) = some (bs + f) := by
  obtain ⟨h1, h2, h3⟩ := findSub?_eq_some h
  refine findSub?_eq_some_iff.mpr ⟨by omega, matchesAt_of_slice hb hbs h2, ?_⟩
  intro q hq1 hq2 hm
  have hj : q = bs + (q - bs) := by omega
  by_cases hfit : (q - bs) + pat.length ≤ block.length
  · exact h3 (q - bs) (by omega) (by omega) (matchesAt_to_slice hb hfit (hj ▸ hm))
  · have hf2 : f + pat.length ≤ block.length := h2.1
    omega

/-- Membership transfer for the scanning loop: every hit of the block scan,
shifted by the block's offset, is a hit of the full-text scan started at the
corresponding position (any fuel at least the block's suffices). -/
theorem find_non_overlapping_aux_sync {α : Type} [DecidableEq α]
    {full block pat : List α} {bs m : Nat}
    (hb : block = (full.drop bs).take m) (hbs : bs ≤ full.length) :
    ∀ {k K s p : Nat}, k ≤ K →
      p ∈ find_non_overlapping_aux block pat s k →
      bs + p ∈ find_non_overlapping_aux full pat (bs + s) K := by
  intro k
  induction k with
  | zero => intro K s p _ h; simp [find_non_overlapping_aux] at h
  | succ k ih =>
    intro K s p hK h
    unfold find_non_overlapping_aux at h
    cases hf : findSub? block pat s with
    | none => simp [hf] at h
    | some f =>
      simp [hf] at h
      obtain ⟨K', rfl⟩ : ∃ K', K = K' + 1 := ⟨K - 1, by omega⟩
      have hsync := findSub?_slice_sync hb hbs hf
      unfold find_non_overlapping_aux
      rw [hsync]
      rcases h with rfl | h
      · exact List.mem_cons_self _ _
      · refine List.mem_cons_of_mem _ ?_
        have := ih (K := K') (s := f + pat.length) (p := p) (by omega) h
        rwa [← Nat.add_assoc] at this

/-- When the needle never occurs before the block start, every in-block
occurrence found by the block scan reappears, shifted to absolute position, in
the full-text scan. -/
theorem fnol_block_subset_full {α : Type} [DecidableEq α]
    {full block pat : List α} {bs m : Nat}
    (hb : block = (full.drop bs).take m) (hbs : bs ≤ full.length)
    (hno : ∀ q, q < bs → ¬ matchesAt full pat q) :
    ∀ p ∈ find_non_overlapping_positions_in_text block pat,
      bs + p ∈ find_non_overlapping_positions_in_text full pat := by
  intro p hp
  have hlen : block.length ≤ full.length := by
    subst hb
    simp only [List.length_take, List.length_drop]
    omega
  have heq : findSub? full pat 0 = findSub? full pat bs :=
    findSub?_eq_of_no_match_below (Nat.zero_le bs) hno
  have hstart : find_non_overlapping_aux full pat 0 (full.length + 1)
      = find_non_overlapping_aux full pat bs (full.length + 1) := by
    unfold find_non_overlapping_aux
    rw [heq]
  unfold find_non_overlapping_positions_in_text
  rw [hstart]
  have := find_non_overlapping_aux_sync hb hbs
    (k := block.length + 1) (K := full.length + 1) (s := 0) (p := p)
    (by omega) hp
  rwa [Nat.add_zero] at this

/-! ## Characterisation of the tag-detection scan -/

/-- Soundness of the detection scan: every accepted entry records exactly the
non-overlapping occurrence list of its tag in the block, that list has exactly
the required length, its absolute first position is the block start plus the
first relative occurrence, and its tag is a `TAG_LENGTH_CHARS`-slice of the
block taken at some scanned offset bearing the three-pipe prefix. -/
theorem detectTagsAux_sound {block : List Char} {bs : Nat} :
    ∀ {idxs : List Nat} {seen : List (List Char)} {ent : TagEntry},
    ent ∈ detectTagsAux block bs idxs seen →
      ent.positionsRelInBlock =
        find_non_overlapping_positions_in_text block ent.sessionTabGroupTag ∧
      ent.positionsRelInBlock.length = REPEAT_COUNT_REQUIRED ∧
      ent.tagFirstPosAbs = bs + ent.positionsRelInBlock.headD 0 ∧
      ∃ i ∈ idxs, (block.drop i).take 3 = triplePipe ∧
        ent.sessionTabGroupTag = (block.drop i).take TAG_LENGTH_CHARS := by
  intro idxs
  induction idxs with
  | nil => intro seen ent h; simp [detectTagsAux] at h
  | cons i rest ih =>
    intro seen ent h
    unfold detectTagsAux at h
    by_cases hpre : (block.drop i).take 3 ≠ triplePipe
    · simp only [if_pos hpre] at h
      obtain ⟨e1, e2, e3, j, hj, hj2⟩ := ih h
      exact ⟨e1, e2, e3, j, List.mem_cons_of_mem _ hj, hj2⟩
    · simp only [if_neg hpre] at h
      push_neg at hpre
      by_cases hseen : (block.drop i).take TAG_LENGTH_CHARS ∈ seen
      · simp only [if_pos hseen] at h
        obtain ⟨e1, e2, e3, j, hj, hj2⟩ := ih h
        exact ⟨e1, e2, e3, j, List.mem_cons_of_mem _ hj, hj2⟩
      · simp only [if_neg hseen] at h
        by_cases hcount : (find_non_overlapping_positions_in_text block
            ((block.drop i).take TAG_LENGTH_CHARS)).length = REPEAT_COUNT_REQUIRED
        · simp only [if_pos hcount] at h
          rcases List.mem_cons.mp h with rfl | h
          · exact ⟨rfl, hcount, rfl, i, List.mem_cons_self _ _, hpre, rfl⟩
          · obtain ⟨e1, e2, e3, j, hj, hj2⟩ := ih h
            exact ⟨e1, e2, e3, j, List.mem_cons_of_mem _ hj, hj2⟩
        · simp only [if_neg hcount] at h
          obtain ⟨e1, e2, e3, j, hj, hj2⟩ := ih h
          exact ⟨e1, e2, e3, j, List.mem_cons_of_mem _ hj, hj2⟩

/-- Completeness/exactness of the detection scan: a candidate text is the tag
of some accepted entry iff it has not been seen yet, it is a three-pipe
prefixed `TAG_LENGTH_CHARS`-slice at one of the scanned offsets, and it occurs
in the block a number of times exactly `REPEAT_COUNT_REQUIRED`. -/
theorem detectTagsAux_mem_iff {block : List Char} {bs : Nat} :
    ∀ {idxs : List Nat} {seen : List (List Char)} {c : List Char},
    (∃ ent ∈ detectTagsAux block bs idxs seen, ent.sessionTabGroupTag = c) ↔
      (c ∉ seen ∧
       (∃ i ∈ idxs, (block.drop i).take 3 = triplePipe ∧
         c = (block.drop i).take TAG_LENGTH_CHARS) ∧
       (find_non_overlapping_positions_in_text block c).length
         = REPEAT_COUNT_REQUIRED) := by
  intro idxs
  induction idxs with
  | nil =>
    intro seen c
    simp [detectTagsAux]
  | cons i rest ih =>
    intro seen c
    unfold detectTagsAux
    by_cases hpre : (block.drop i).take 3 ≠ triplePipe
    · simp only [if_pos hpre]
      rw [ih]
      constructor
      · rintro ⟨h1, ⟨j, hj, hj2⟩, h3⟩
        exact ⟨h1, ⟨j, List.mem_cons_of_mem _ hj, hj2⟩, h3⟩
      · rintro ⟨h1, ⟨j, hj, hj2, hj3⟩, h3⟩
        rcases List.mem_cons.mp hj with rfl | hj'
        · exact absurd hj2 hpre
        · exact ⟨h1, ⟨j, hj', hj2, hj3⟩, h3⟩
    · simp only [if_neg hpre]
      push_neg at hpre
      by_cases hseen : (block.drop i).take TAG_LENGTH_CHARS ∈ seen
      · simp only [if_pos hseen]
        rw [ih]
        constructor
        · rintro ⟨h1, ⟨j, hj, hj2⟩, h3⟩
          exact ⟨h1, ⟨j, List.mem_cons_of_mem _ hj, hj2⟩, h3⟩
        · rintro ⟨h1, ⟨j, hj, hj2, hj3⟩, h3⟩
          rcases List.mem_cons.mp hj with rfl | hj'
          · subst hj3; exact absurd hseen h1
          · exact ⟨h1, ⟨j, hj', hj2, hj3⟩, h3⟩
      · simp only [if_neg hseen]
        by_cases hc : c = (block.drop i).take TAG_LENGTH_CHARS
        · subst hc
          by_cases hcount : (find_non_overlapping_positions_in_text block
              ((block.drop i).take TAG_LENGTH_CHARS)).length = REPEAT_COUNT_REQUIRED
          · simp only [if_pos hcount]
            constructor
            · intro _
              exact ⟨hseen, ⟨i, List.mem_cons_self _ _, hpre, rfl⟩, hcount⟩
            · intro _
              exact ⟨_, List.mem_cons_self _ _, rfl⟩
          · simp only [if_neg hcount]
            rw [ih]
            constructor
            · rintro ⟨h1, _, h3⟩
              exact absurd (List.mem_cons_self _ _) h1
            · rintro ⟨_, _, h3⟩
              exact absurd h3 hcount
        · have hne : ∀ b : Prop, True := fun _ => trivial
          by_cases hcount : (find_non_overlapping_positions_in_text block
              ((block.drop i).take TAG_LENGTH_CHARS)).length = REPEAT_COUNT_REQUIRED
          · simp only [if_pos hcount]
            constructor
            · rintro ⟨ent, hent, rfl⟩
              rcases List.mem_cons.mp hent with rfl | hent'
              · exact absurd rfl hc
              · obtain ⟨h1, ⟨j, hj, hj2⟩, h3⟩ := ih.mp ⟨ent, hent', rfl⟩
                have h1' : ent.sessionTabGroupTag ∉ seen :=
                  fun hmem => h1 (List.mem_cons_of_mem _ hmem)
                exact ⟨h1', ⟨j, List.mem_cons_of_mem _ hj, hj2⟩, h3⟩
            · rintro ⟨h1, ⟨j, hj, hj2, hj3⟩, h3⟩
              rcases List.mem_cons.mp hj with rfl | hj'
              · exact absurd hj3 hc
              · have hns : c ∉ (block.drop i).take TAG_LENGTH_CHARS :: seen := by
                  intro hmem
                  rcases List.mem_cons.mp hmem with h' | h'
                  · exact hc h'
                  · exact h1 h'
                obtain ⟨ent, hent, hent2⟩ := ih.mpr ⟨hns, ⟨j, hj', hj2, hj3⟩, h3⟩
                exact ⟨ent, List.mem_cons_of_mem _ hent, hent2⟩
          · simp only [if_neg hcount]
            rw [ih]
            constructor
            · rintro ⟨h1, ⟨j, hj, hj2⟩, h3⟩
              have h1' : c ∉ seen := fun hmem => h1 (List.mem_cons_of_mem _ hmem)
              exact ⟨h1', ⟨j, List.mem_cons_of_mem _ hj, hj2⟩, h3⟩
            · rintro ⟨h1, ⟨j, hj, hj2, hj3⟩, h3⟩
              rcases List.mem_cons.mp hj with rfl | hj'
              · exact absurd hj3 hc
              · refine ⟨?_, ⟨j, hj', hj2, hj3⟩, h3⟩
                intro hmem
                rcases List.mem_cons.mp hmem with h' | h'
                · exact hc h'
                · exact h1 h'

/-- Claim C7 (tag exactness): a `TAG_LENGTH_CHARS`-character candidate starting
with three sentinels found anywhere in the block is the tag of an accepted
`TagCandidate` if and only if its non-overlapping occurrence count in the
block equals `REPEAT_COUNT_REQUIRED` (= 5) exactly — in particular a pattern
occurring 4 or 6 times is not accepted. -/
theorem tag_exactness (block : List Char) (bs i : Nat)
    (hlen : i + TAG_LENGTH_CHARS ≤ block.length)
    (hpre : (block.drop i).take 3 = triplePipe) :
    ((∃ ent ∈ detectTags block bs,
        ent.sessionTabGroupTag = (block.drop i).take TAG_LENGTH_CHARS) ↔
      (find_non_overlapping_positions_in_text block
        ((block.drop i).take TAG_LENGTH_CHARS)).length = REPEAT_COUNT_REQUIRED) := by
  unfold detectTags
  rw [detectTagsAux_mem_iff]
  constructor
  · rintro ⟨_, _, h3⟩
    exact h3
  · intro h
    refine ⟨List.not_mem_nil _, ⟨i, ?_, hpre, rfl⟩, h⟩
    rw [List.mem_range]
    omega

/-- Concrete block exercising `tag_exactness`: one `|||`-prefixed
19-character pattern repeated 5 times. -/
def c7Block : List Char :=
  ("|||abcdefghijklmnop|||abcdefghijklmnop|||abcdefghijklmnop" ++
   "|||abcdefghijklmnop|||abcdefghijklmnop").toList

theorem tag_exactness_witness :
    (0 + TAG_LENGTH_CHARS ≤ c7Block.length ∧
      (c7Block.drop 0).take 3 = triplePipe) ∧
    ((∃ ent ∈ detectTags c7Block 1,
        ent.sessionTabGroupTag = (c7Block.drop 0).take TAG_LENGTH_CHARS) ↔
      (find_non_overlapping_positions_in_text c7Block
        ((c7Block.drop 0).take TAG_LENGTH_CHARS)).length = REPEAT_COUNT_REQUIRED) :=
  ⟨⟨by decide, by decide⟩, tag_exactness c7Block 1 0 (by decide) (by decide)⟩

/-! ## Facts feeding the tag-occurrence-index claims -/

theorem block_start_abs_le (sb : List Nat) : block_start_abs sb ≤ sb.length := by
  unfold block_start_abs
  cases h : findSub? sb [125] 0 with
  | none => exact Nat.zero_le _
  | some i =>
    have := (findSub?_eq_some h).2.1.1
    simp at this
    show i + 1 ≤ sb.length
    omega

/-- The block text is the corresponding slice of the full display text
whenever the block is non-degenerate. -/
theorem session_block_eq_slice (sb : List Nat)
    (h : block_start_abs sb < first_http_abs sb) :
    session_tab_group_block_text sb =
      ((textWithPipes sb).drop (block_start_abs sb)).take
        (first_http_abs sb - block_start_abs sb) := by
  unfold session_tab_group_block_text textWithPipes
  rw [if_pos h, List.map_take, List.map_drop]

theorem reconstructGroup_tag {full block : List Char} {bs : Nat}
    {ent : TagEntry} {g : GroupEntry}
    (h : reconstructGroup full block bs ent = some g) :
    g.sessionTabGroupTag = ent.sessionTabGroupTag := by
  unfold reconstructGroup at h
  by_cases h2 : ent.positionsRelInBlock.length < 2
  · rw [if_pos h2] at h
    exact absurd h (by simp)
  · rw [if_neg h2] at h
    simp only [] at h
    split at h
    · exact absurd h (by simp)
    · split at h
      · exact absurd h (by simp)
      · cases h
        rfl

/-- Every reconstructed group's tag is the tag of some detected entry. -/
theorem group_from_detected {sb : List Nat} {g : GroupEntry}
    (hg : g ∈ sessionTagsAndGroups sb) :
    ∃ ent ∈ detectTags (session_tab_group_block_text sb) (block_start_abs sb),
      ent.sessionTabGroupTag = g.sessionTabGroupTag := by
  unfold sessionTagsAndGroups at hg
  by_cases hb : session_tab_group_block_text sb = []
  · rw [if_pos hb] at hg
    exact absurd hg (List.not_mem_nil _)
  · rw [if_neg hb] at hg
    rw [List.mem_mergeSort] at hg
    obtain ⟨ent, hent, hrec⟩ := List.mem_filterMap.mp hg
    exact ⟨ent, hent, (reconstructGroup_tag hrec).symm⟩

/-- Every detected entry's tag has length `TAG_LENGTH_CHARS`. -/
theorem detected_tag_length {block : List Char} {bs : Nat} {ent : TagEntry}
    (h : ent ∈ detectTags block bs) :
    ent.sessionTabGroupTag.length = TAG_LENGTH_CHARS := by
  obtain ⟨_, _, _, i, hi, _, htag⟩ := detectTagsAux_sound h
  rw [List.mem_range] at hi
  rw [htag]
  simp only [List.length_take, List.length_drop, TAG_LENGTH_CHARS] at *
  omega

/-- Claim C2, corrected (tag-occurrence index): every entry of
`tag_to_all_occurrences` is sorted strictly ascending with no duplicate
offsets; and *provided the tag has no occurrence in the full display text
before the block start* (the additional hypothesis the counterexample below
forces), every in-block occurrence of the tag reappears at
`blockStart + p` in the full-text list. -/
theorem tag_occurrence_index_superset (sb : List Nat) :
    ∀ tagOccs ∈ tagToAllOccurrences sb,
      tagOccs.2.Pairwise (fun a b => a < b) ∧
      ((∀ q, q < block_start_abs sb →
          ¬ matchesAt (textWithPipes sb) tagOccs.1 q) →
        ∀ ent ∈ detectedEntries sb, ent.sessionTabGroupTag = tagOccs.1 →
          ∀ p ∈ ent.positionsRelInBlock,
            block_start_abs sb + p ∈ tagOccs.2) := by
  intro tagOccs hmem
  unfold tagToAllOccurrences at hmem
  by_cases hguard : sessionTagsAndGroups sb = [] ∨ textWithPipes sb = []
  · rw [if_pos hguard] at hmem
    exact absurd hmem (List.not_mem_nil _)
  · rw [if_neg hguard] at hmem
    obtain ⟨g, hg, rfl⟩ := List.mem_map.mp hmem
    obtain ⟨ent0, hent0, htag0⟩ := group_from_detected hg
    have htaglen : g.sessionTabGroupTag.length = TAG_LENGTH_CHARS := by
      rw [← htag0]; exact detected_tag_length hent0
    have hgap : (find_non_overlapping_positions_in_text (textWithPipes sb)
        g.sessionTabGroupTag).Pairwise
        (fun a b => a + g.sessionTabGroupTag.length ≤ b) :=
      find_non_overlapping_aux_pairwise
    have hsortedle : (find_non_overlapping_positions_in_text (textWithPipes sb)
        g.sessionTabGroupTag).Pairwise
        (fun a b => (fun a b : Nat => decide (a ≤ b)) a b = true) :=
      hgap.imp (fun {a b} h => by
        simp only [decide_eq_true_eq]
        omega)
    have hms : (find_non_overlapping_positions_in_text (textWithPipes sb)
        g.sessionTabGroupTag).mergeSort (fun a b => a ≤ b)
        = find_non_overlapping_positions_in_text (textWithPipes sb)
          g.sessionTabGroupTag :=
      List.mergeSort_of_sorted hsortedle
    have hpos : 0 < g.sessionTabGroupTag.length := by
      rw [htaglen]; decide
    constructor
    · simp only [hms]
      exact hgap.imp (fun {a b} h => by omega)
    · intro hno ent hent htag p hp
      have hblock : session_tab_group_block_text sb ≠ [] := by
        intro hbe
        unfold sessionTagsAndGroups at hguard
        rw [if_pos hbe] at hguard
        exact hguard (Or.inl rfl)
      unfold detectedEntries at hent
      rw [if_neg hblock] at hent
      have hsound := detectTagsAux_sound hent
      have hposeq := hsound.1
      have hbsfh : block_start_abs sb < first_http_abs sb := by
        by_contra hlt
        unfold session_tab_group_block_text at hblock
        rw [if_neg hlt] at hblock
        exact hblock rfl
      have hslice := session_block_eq_slice sb hbsfh
      have hbs : block_start_abs sb ≤ (textWithPipes sb).length := by
        unfold textWithPipes
        rw [List.length_map]
        exact block_start_abs_le sb
      have hp' : p ∈ find_non_overlapping_positions_in_text
          (session_tab_group_block_text sb) (ent.sessionTabGroupTag) := by
        rw [← hposeq]; exact hp
      have htagg : ent.sessionTabGroupTag = g.sessionTabGroupTag := htag
      rw [htagg] at hp'
      have := fnol_block_subset_full hslice hbs
        hno p hp'
      simp only [hms]
      exact this

/-- Building block of the counterexample buffer: three non-printable bytes,
`}`, then `abcdef`. -/
def cexX : List Nat := [0, 0, 0, 125, 97, 98, 99, 100, 101, 102]

/-- The counterexample tag bytes: display text `|||}abcdef|||}abcde`
(period 10, so occurrences can overlap at distance 10). -/
def cexTag : List Nat := cexX ++ cexX.take 9

/-- A buffer on which the superset claim fails: the tag occurs at offset 0,
*before* the block start 4 (the first `}` sits inside the tag at offset 3),
which phase-shifts the full-text non-overlapping scan past the block's first
occurrence at absolute offset 10. -/
def cexBuffer : List Nat :=
  cexX ++ cexX ++ cexX.take 9 ++ [122, 122, 122, 122, 122, 36] ++
    cexTag ++ cexTag ++ cexTag ++ cexTag

/-- The tag entry the detector accepts on `cexBuffer`. -/
def cexEntry : TagEntry :=
  { sessionTabGroupTag := "|||\x7dabcdef|||\x7dabcde".toList
    positionsRelInBlock := [6, 31, 50, 69, 88]
    tagFirstPosAbs := 10 }

set_option maxRecDepth 10000 in
unseal List.merge List.mergeSort in
/-- Claim C2, counterexample: on `cexBuffer` the detector accepts a tag with
in-block occurrence `p = 6` (absolute offset `blockStart + 6 = 10`), yet the
full-display-text occurrence list of that tag in `tag_to_all_occurrences` is
`[0, 35, 54, 73, 92]`, which does not contain 10: the index is *not* a
superset of the shifted in-block occurrences. -/
theorem tag_occurrence_index_not_superset :
    cexEntry ∈ detectedEntries cexBuffer ∧
    6 ∈ cexEntry.positionsRelInBlock ∧
    assocLookup (tagToAllOccurrences cexBuffer) cexEntry.sessionTabGroupTag
      = some [0, 35, 54, 73, 92] ∧
    block_start_abs cexBuffer + 6 ∉ ([0, 35, 54, 73, 92] : List Nat) :=
  ⟨by decide, by decide, by decide, by decide⟩

/-- A well-behaved buffer (no occurrence of the tag before the block start)
witnessing the amended superset property. -/
def witBuffer : List Nat :=
  [125] ++ ([0, 0, 0, 97, 98, 99, 100, 101, 102, 103, 104, 105, 106, 107,
    108, 109, 110, 111, 112] ++ List.replicate 23 122 ++ [36]) ++
    [0, 0, 0, 97, 98, 99, 100, 101, 102, 103, 104, 105, 106, 107, 108, 109,
      110, 111, 112] ++
    [0, 0, 0, 97, 98, 99, 100, 101, 102, 103, 104, 105, 106, 107, 108, 109,
      110, 111, 112] ++
    [0, 0, 0, 97, 98, 99, 100, 101, 102, 103, 104, 105, 106, 107, 108, 109,
      110, 111, 112] ++
    [0, 0, 0, 97, 98, 99, 100, 101, 102, 103, 104, 105, 106, 107, 108, 109,
      110, 111, 112]

/-- The tag entry the detector accepts on `witBuffer`. -/
def witEntry : TagEntry :=
  { sessionTabGroupTag := "|||abcdefghijklmnop".toList
    positionsRelInBlock := [0, 43, 62, 81, 100]
    tagFirstPosAbs := 1 }

set_option maxRecDepth 10000 in
unseal List.merge List.mergeSort in
/-- Witness for the amended C2 on `witBuffer`. -/
theorem tag_occurrence_index_superset_witness :
    ("|||abcdefghijklmnop".toList, ([1, 44, 63, 82, 101] : List Nat))
      ∈ tagToAllOccurrences witBuffer ∧
    ([1, 44, 63, 82, 101] : List Nat).Pairwise (fun a b => a < b) ∧
    block_start_abs witBuffer + 0 ∈ ([1, 44, 63, 82, 101] : List Nat) :=
  ⟨by decide,
   (tag_occurrence_index_superset witBuffer
     ("|||abcdefghijklmnop".toList, [1, 44, 63, 82, 101]) (by decide)).1,
   (tag_occurrence_index_superset witBuffer
     ("|||abcdefghijklmnop".toList, [1, 44, 63, 82, 101]) (by decide)).2
     (by decide) witEntry (by decide) (by decide) 0 (by decide)⟩

/-- Claim C9 (graceful degradation on missing structure): whenever the computed
block start is at or past the first-URL offset, the tab-group block is empty
and zero tag groups are produced — the embedding is total, so the run
completes with this empty (valid) result rather than failing. -/
theorem empty_block_graceful (session_bytes : List Nat)
    (h : first_http_abs session_bytes ≤ block_start_abs session_bytes) :
    session_tab_group_block_text session_bytes = [] ∧
    sessionTagsAndGroups session_bytes = [] := by
  have hblock : session_tab_group_block_text session_bytes = [] := by
    unfold session_tab_group_block_text
    rw [if_neg (by omega)]
  refine ⟨hblock, ?_⟩
  unfold sessionTagsAndGroups
  rw [if_pos hblock]

theorem empty_block_graceful_witness :
    first_http_abs [125] ≤ block_start_abs [125] ∧
    session_tab_group_block_text [125] = [] ∧
    sessionTagsAndGroups [125] = [] :=
  ⟨by decide, empty_block_graceful [125] (by decide)⟩

/-! ## Group-name reconstruction against the specification's wording (C6) -/

/-- The characters at even relative indices of a string — the spec's
description of the `[0::2]` extraction. -/
def evenIndexChars (s : List Char) : List Char :=
  ((s.enum).filter (fun ic => ic.1 % 2 = 0)).map (fun ic => ic.2)

/-- The spec's marker rule: the presumptive marker offset is
`secondOccurrenceOffset − 44` (block-relative); only when that value is
negative, scan backward for the nearest `$` in the 80-character window
preceding the second occurrence, falling back to `max(0, second − 44)`
(here the truncated subtraction) if none is found. -/
def specMarkerRel (block_text : List Char) (second_rel : Nat) : Nat :=
  if 44 ≤ second_rel then second_rel - 44
  else
    match rfindSub? block_text ['$'] (second_rel - 80) second_rel with
    | some found => found
    | none => second_rel - 44

/-- The spec's `groupEnd`: the first non-sentinel character found scanning
backward from the absolute marker offset minus one, i.e. the largest index
below the marker holding a non-pipe character. -/
def specGroupEnd (full_text : List Char) (dollar_abs : Nat) : Option Nat :=
  ((List.range dollar_abs).filter
    (fun i => full_text.getD i ' ' ≠ REPLACEMENT_CHAR_PIPE)).getLast?

/-- The Group Name Reconstructor as the specification words it (§4.4):
discard when no non-sentinel exists below the marker or when
`groupStart > groupEnd`; otherwise the name is the even-index characters of
`DisplayText[groupStart..groupEnd]`, trimmed. -/
def reconstructGroupSpec (full_text block_text : List Char) (bs : Nat)
    (ent : TagEntry) : Option GroupEntry :=
  if ent.positionsRelInBlock.length < 2 then none
  else
    let second_rel := ent.positionsRelInBlock.getD 1 0
    let group_start :=
      ent.tagFirstPosAbs + TAG_LENGTH_CHARS + ADVANCE_AFTER_TAG_TO_GROUP_START
    let dollar_abs := bs + specMarkerRel block_text second_rel
    match specGroupEnd full_text dollar_abs with
    | none => none
    | some group_end =>
      if group_start > group_end then none
      else
        let spaced := (full_text.drop group_start).take
          (group_end + 1 - group_start)
        some
          { sessionTabGroupTag := ent.sessionTabGroupTag
            groupSpaced := spaced
            sessionTabGroup := pyStrip (evenIndexChars spaced)
            tagFirstPosAbs := ent.tagFirstPosAbs
            groupStartAbs := group_start
            groupEndAbs := group_end }

theorem codeMarker_eq_specMarker (block_text : List Char) (s : Nat) :
    (if ((s : Int) - 44) < 0 then
        match rfindSub? block_text ['$'] (s - 80) s with
        | some found => found
        | none => s - 44
      else ((s : Int) - 44).toNat) = specMarkerRel block_text s := by
  unfold specMarkerRel
  by_cases h : 44 ≤ s
  · rw [if_neg (by omega), if_pos h]
    omega
  · rw [if_pos (by omega), if_neg h]

theorem lastNonPipeBefore_eq_specGroupEnd (full_text : List Char) :
    ∀ k, lastNonPipeBefore full_text k = specGroupEnd full_text k := by
  intro k
  induction k with
  | zero => simp [lastNonPipeBefore, specGroupEnd]
  | succ k ih =>
    unfold lastNonPipeBefore specGroupEnd
    rw [List.range_succ, List.filter_append]
    by_cases h : full_text.getD k ' ' ≠ REPLACEMENT_CHAR_PIPE
    · have hd : decide (full_text.getD k ' ' ≠ REPLACEMENT_CHAR_PIPE) = true :=
        decide_eq_true h
      rw [if_pos h, List.filter_cons, if_pos hd, List.filter_nil,
        List.getLast?_concat]
    · have hd : decide (full_text.getD k ' ' ≠ REPLACEMENT_CHAR_PIPE) = false :=
        decide_eq_false h
      rw [if_neg h, List.filter_cons, if_neg (by rw [hd]; simp), List.filter_nil,
        List.append_nil]
      exact ih

theorem enumFrom_even_parity (l : List Char) :
    ∀ n m, n % 2 = m % 2 →
      ((l.enumFrom n).filter (fun ic => ic.1 % 2 = 0)).map (fun ic => ic.2)
        = ((l.enumFrom m).filter (fun ic => ic.1 % 2 = 0)).map
            (fun ic => ic.2) := by
  induction l with
  | nil => intro n m _; simp
  | cons c rest ih =>
    intro n m hpar
    simp only [List.enumFrom_cons, List.filter_cons]
    by_cases hn : n % 2 = 0
    · rw [if_pos (by simpa using hn), if_pos (by simp; omega)]
      simp only [List.map_cons]
      rw [ih (n + 1) (m + 1) (by omega)]
    · rw [if_neg (by simpa using hn), if_neg (by simp; omega)]
      exact ih (n + 1) (m + 1) (by omega)

theorem everyOtherChar_eq_evenIndexChars :
    ∀ s, everyOtherChar s = evenIndexChars s := by
  intro s
  induction s using everyOtherChar.induct with
  | case1 => simp [everyOtherChar, evenIndexChars]
  | case2 c => simp [everyOtherChar, evenIndexChars, List.enum]
  | case3 c d rest ih =>
    unfold everyOtherChar evenIndexChars
    simp only [List.enum, List.enumFrom_cons, List.filter_cons]
    rw [if_pos (by simp), if_neg (by simp)]
    simp only [List.map_cons]
    rw [enumFrom_even_parity rest 2 0 (by omega)]
    unfold evenIndexChars List.enum at ih
    rw [ih]

/-- Claim C6 (Group Name Reconstructor): the source's reconstruction —
Python-integer marker arithmetic, backward pipe scan, `[0::2]` extraction,
`strip()` — agrees with the specification's description on every input: the
marker is `secondOffset − 44` with the `$`-scan used only when that is
negative (falling back to the truncated `second − 44`), `groupEnd` is the
last non-sentinel index before the absolute marker, the group is discarded
exactly when no such character exists or `groupStart > groupEnd`, and the
name is the even-index characters of `DisplayText[groupStart..groupEnd]`,
trimmed. -/
theorem group_name_reconstruction (full_text block_text : List Char) (bs : Nat)
    (ent : TagEntry) :
    reconstructGroup full_text block_text bs ent
      = reconstructGroupSpec full_text block_text bs ent := by
  unfold reconstructGroup reconstructGroupSpec
  by_cases h2 : ent.positionsRelInBlock.length < 2
  · rw [if_pos h2, if_pos h2]
  · rw [if_neg h2, if_neg h2]
    simp only [codeMarker_eq_specMarker, lastNonPipeBefore_eq_specGroupEnd,
      everyOtherChar_eq_evenIndexChars]

/-! ## The interleaved-URL confirmer (C5) -/

theorem tryConfirmAttempt_eq_some_iff
    {full_text : List Char} {url_list : List (Nat × Nat × List Char)}
    {s e : Nat} {cand raw : List Char} {rec : ConfirmedRec} :
    tryConfirmAttempt full_text url_list s e cand raw = some rec ↔
      (cand ≠ [] ∧ ∃ idx,
        findSub? full_text (build_pipe_interleaved_text_for_url cand) e
          = some idx ∧
        any_simple_url_between e idx url_list = false ∧
        rec = { simpleStart := s, simpleEnd := e, canonicalUrl := cand
                interleavedStart := idx
                interleavedEnd :=
                  idx + (build_pipe_interleaved_text_for_url cand).length
                rawUrl := raw }) := by
  unfold tryConfirmAttempt
  by_cases hc : cand = []
  · simp [hc]
  · rw [if_neg hc]
    cases hf : findSub? full_text (build_pipe_interleaved_text_for_url cand) e with
    | none => simp [hf, hc]
    | some idx =>
      by_cases hb : any_simple_url_between e idx url_list
      · simp [hf, hb, hc]
      · simp only [Bool.not_eq_true] at hb
        simp only [hf, hb, Bool.false_eq_true, if_false]
        constructor
        · intro h
          refine ⟨hc, idx, rfl, hb, ?_⟩
          exact (Option.some.injEq _ _ ▸ h).symm
        · rintro ⟨-, idx', hidx', -, rfl⟩
          cases hidx'
          rfl

theorem tryConfirmAttempt_eq_none_iff
    {full_text : List Char} {url_list : List (Nat × Nat × List Char)}
    {s e : Nat} {cand raw : List Char} (hc : cand ≠ []) :
    tryConfirmAttempt full_text url_list s e cand raw = none ↔
      (findSub? full_text (build_pipe_interleaved_text_for_url cand) e
        = none ∨
       ∃ idx, findSub? full_text (build_pipe_interleaved_text_for_url cand) e
          = some idx ∧
         any_simple_url_between e idx url_list = true) := by
  unfold tryConfirmAttempt
  rw [if_neg hc]
  cases hf : findSub? full_text (build_pipe_interleaved_text_for_url cand) e with
  | none => simp [hf]
  | some idx =>
    by_cases hb : any_simple_url_between e idx url_list
    · simp [hf, hb]
    · simp [hf, hb]

/-- Claim C5 (interleaved-URL confirmation): the interleaved form of
`https://a.b/c` is the expected pipe-separated string; and for every plain
URL candidate `[s, e)` with matched text `raw`, the confirmer yields a record
exactly as described: either the *first try* (the full text) finds its
interleaved form at some `idx ≥ e` with no other URL candidate starting
strictly between `e` and `idx`; or the first try fails (no interleaved hit,
or an intervening URL), the text is longer than one character, and the
*second try* (the text minus its last character) succeeds the same way.  When
both tries fail no record is produced. -/
theorem interleaved_url_confirmation :
    build_pipe_interleaved_text_for_url ("https://a.b/c".toList)
      = "|h|t|t|p|s|:|/|/|a|.|b|/|c|".toList ∧
    ∀ (full_text : List Char) (url_list : List (Nat × Nat × List Char))
      (s e : Nat) (raw : List Char), raw ≠ [] → ∀ rec : ConfirmedRec,
      (confirmRecordFor full_text url_list (s, e, raw) = some rec ↔
        ((∃ idx,
            findSub? full_text (build_pipe_interleaved_text_for_url raw) e
              = some idx ∧
            any_simple_url_between e idx url_list = false ∧
            rec = { simpleStart := s, simpleEnd := e, canonicalUrl := raw
                    interleavedStart := idx
                    interleavedEnd :=
                      idx + (build_pipe_interleaved_text_for_url raw).length
                    rawUrl := raw })
         ∨ ((findSub? full_text (build_pipe_interleaved_text_for_url raw) e
              = none ∨
             ∃ idx1,
               findSub? full_text (build_pipe_interleaved_text_for_url raw) e
                 = some idx1 ∧
               any_simple_url_between e idx1 url_list = true) ∧
            1 < raw.length ∧
            ∃ idx,
              findSub? full_text
                (build_pipe_interleaved_text_for_url raw.dropLast) e
                = some idx ∧
              any_simple_url_between e idx url_list = false ∧
              rec = { simpleStart := s, simpleEnd := e
                      canonicalUrl := raw.dropLast
                      interleavedStart := idx
                      interleavedEnd := idx +
                        (build_pipe_interleaved_text_for_url
                          raw.dropLast).length
                      rawUrl := raw }))) := by
  refine ⟨by decide, ?_⟩
  intro full_text url_list s e raw hraw rec
  cases h1 : tryConfirmAttempt full_text url_list s e raw raw with
  | some r1 =>
    simp only [confirmRecordFor, h1]
    obtain ⟨-, idx, hfind, hbet, hr1⟩ := tryConfirmAttempt_eq_some_iff.mp h1
    constructor
    · intro h
      have : r1 = rec := Option.some.injEq _ _ ▸ h
      exact Or.inl ⟨idx, hfind, hbet, this ▸ hr1⟩
    · rintro (⟨idx', hfind', hbet', hrec⟩ | ⟨hfail, _, _⟩)
      · have : idx' = idx := by
          rw [hfind] at hfind'
          exact (Option.some.injEq _ _ ▸ hfind').symm
        subst this
        rw [hrec, ← hr1]
      · rcases hfail with hnone | ⟨idx1, hidx1, hbet1⟩
        · rw [hfind] at hnone
          cases hnone
        · rw [hfind] at hidx1
          have : idx1 = idx := (Option.some.injEq _ _ ▸ hidx1).symm
          subst this
          rw [hbet] at hbet1
          cases hbet1
  | none =>
    simp only [confirmRecordFor, h1]
    have hfail := (tryConfirmAttempt_eq_none_iff hraw).mp h1
    by_cases hlen : 1 < raw.length
    · rw [if_pos hlen]
      have hdne : raw.dropLast ≠ [] := by
        intro hh
        have := congrArg List.length hh
        rw [List.length_dropLast] at this
        simp at this
        omega
      rw [tryConfirmAttempt_eq_some_iff]
      constructor
      · rintro ⟨-, idx, hfind, hbet, hrec⟩
        exact Or.inr ⟨hfail, hlen, idx, hfind, hbet, hrec⟩
      · rintro (⟨idx, hfind, hbet, -⟩ | ⟨-, -, idx, hfind, hbet, hrec⟩)
        · rcases hfail with hnone | ⟨idx1, hidx1, hbet1⟩
          · rw [hfind] at hnone
            cases hnone
          · rw [hfind] at hidx1
            have : idx1 = idx := (Option.some.injEq _ _ ▸ hidx1).symm
            subst this
            rw [hbet] at hbet1
            cases hbet1
        · exact ⟨hdne, idx, hfind, hbet, hrec⟩
    · rw [if_neg hlen]
      simp only [tryConfirmAttempt, if_pos rfl]
      constructor
      · intro h
        cases h
      · rintro (⟨idx, hfind, hbet, -⟩ | ⟨-, hlen', -⟩)
        · rcases hfail with hnone | ⟨idx1, hidx1, hbet1⟩
          · rw [hfind] at hnone
            cases hnone
          · rw [hfind] at hidx1
            have : idx1 = idx := (Option.some.injEq _ _ ▸ hidx1).symm
            subst this
            rw [hbet] at hbet1
            cases hbet1
        · exact absurd hlen' hlen

/-- Concrete text for the C5 witness: a plain URL followed by its interleaved
twin. -/
def c5Full : List Char := "http://ab |h|t|t|p|:|/|/|a|b|".toList

/-- The URL-candidate list for the C5 witness. -/
def c5Urls : List (Nat × Nat × List Char) := [(0, 9, "http://ab".toList)]

/-- The confirmed record the C5 witness expects. -/
def c5Rec : ConfirmedRec :=
  { simpleStart := 0, simpleEnd := 9, canonicalUrl := "http://ab".toList
    interleavedStart := 10, interleavedEnd := 29
    rawUrl := "http://ab".toList }

theorem interleaved_url_confirmation_witness :
    confirmRecordFor c5Full c5Urls (0, 9, "http://ab".toList) = some c5Rec :=
  (interleaved_url_confirmation.2 c5Full c5Urls 0 9 "http://ab".toList
    (by decide) c5Rec).mpr (Or.inl ⟨10, by decide, by decide, by decide⟩)

/-! ## Facts about the URL scanner -/

theorem takeWhile_length_le {α : Type} (p : α → Bool) (l : List α) :
    (l.takeWhile p).length ≤ l.length := by
  induction l with
  | nil => simp
  | cons a tl ih =>
    cases h : p a
    · simp [List.takeWhile_cons, h]
    · simp [List.takeWhile_cons, h]
      omega

theorem urlMatchLenAt_bounds {t : List Char} {i L : Nat}
    (h : urlMatchLenAt t i = some L) : 0 < L ∧ i + L ≤ t.length := by
  unfold urlMatchLenAt at h
  cases hs : schemeLenAt t i with
  | none => rw [hs] at h; cases h
  | some sl =>
    simp only [hs] at h
    have hsl : (sl = 8 ∧ i + 8 ≤ t.length) ∨ (sl = 7 ∧ i + 7 ≤ t.length) := by
      unfold schemeLenAt at hs
      by_cases h4 : matchesCIAt t ['h', 't', 't', 'p'] i
      · rw [if_pos h4] at hs
        by_cases h5 : matchesCIAt t ['s'] (i + 4) ∧
            matchesAt t [':', '/', '/'] (i + 5)
        · rw [if_pos h5] at hs
          cases hs
          have := h5.2.1
          simp at this
          exact Or.inl ⟨rfl, by omega⟩
        · rw [if_neg h5] at hs
          by_cases h6 : matchesAt t [':', '/', '/'] (i + 4)
          · rw [if_pos h6] at hs
            cases hs
            have := h6.1
            simp at this
            exact Or.inr ⟨rfl, by omega⟩
          · rw [if_neg h6] at hs
            cases hs
      · rw [if_neg h4] at hs
        cases hs
    by_cases hbl : ((t.drop (i + sl)).takeWhile isUrlBodyChar).length = 0
    · rw [if_pos hbl] at h
      cases h
    · rw [if_neg hbl] at h
      cases h
      have hble : ((t.drop (i + sl)).takeWhile isUrlBodyChar).length
          ≤ t.length - (i + sl) := by
        calc ((t.drop (i + sl)).takeWhile isUrlBodyChar).length
            ≤ (t.drop (i + sl)).length := takeWhile_length_le _ _
          _ = t.length - (i + sl) := List.length_drop _ _
      rcases hsl with ⟨rfl, hb⟩ | ⟨rfl, hb⟩ <;> omega

theorem findUrlMatchesAux_bounds {t : List Char} :
    ∀ {k i : Nat} {m : Nat × Nat × List Char},
    m ∈ findUrlMatchesAux t i k → m.1 < m.2.1 ∧ m.2.1 ≤ t.length := by
  intro k
  induction k with
  | zero => intro i m h; simp [findUrlMatchesAux] at h
  | succ k ih =>
    intro i m h
    unfold findUrlMatchesAux at h
    by_cases hi : t.length ≤ i
    · rw [if_pos hi] at h
      cases h
    · rw [if_neg hi] at h
      cases hu : urlMatchLenAt t i with
      | some L =>
        rw [hu] at h
        rcases List.mem_cons.mp h with rfl | h'
        · obtain ⟨h1, h2⟩ := urlMatchLenAt_bounds hu
          exact ⟨show i < i + L by omega, show i + L ≤ t.length by omega⟩
        · exact ih h'
      | none =>
        rw [hu] at h
        exact ih h

theorem findUrlMatches_bounds {t : List Char} {m : Nat × Nat × List Char}
    (h : m ∈ findUrlMatches t) : m.1 < m.2.1 ∧ m.2.1 ≤ t.length :=
  findUrlMatchesAux_bounds h

theorem mem_of_getLast?_eq_some {α : Type} {l : List α} {x : α}
    (h : l.getLast? = some x) : x ∈ l := by
  obtain ⟨hne, rfl⟩ := List.mem_getLast?_eq_getLast (by rw [h]; rfl)
  exact List.getLast_mem hne

/-- Python `rfind` of the empty needle in `[0, b)` returns `b` itself (for `b` within
the text) — exactly what Python's `rfind("", 0, b)` does. -/
theorem rfindSub?_nil (l : List Char) (b : Nat) (hb : b ≤ l.length) :
    rfindSub? l ([] : List Char) 0 b = some b := by
  unfold rfindSub?
  have hsplit : l.length + 1 = (b + 1) + (l.length - b) := by omega
  rw [hsplit, List.range_add]
  rw [List.filter_append]
  have h1 : (List.range (b + 1)).filter
      (fun i => 0 ≤ i && i + ([] : List Char).length ≤ b
        && matchesAt l ([] : List Char) i) = List.range (b + 1) := by
    rw [List.filter_eq_self]
    intro a ha
    rw [List.mem_range] at ha
    simp only [Bool.and_eq_true, decide_eq_true_eq]
    refine ⟨⟨by omega, by simp; omega⟩, ?_⟩
    simp [matchesAt]
    omega
  have h2 : ((List.range (l.length - b)).map (fun x => b + 1 + x)).filter
      (fun i => 0 ≤ i && i + ([] : List Char).length ≤ b
        && matchesAt l ([] : List Char) i) = [] := by
    rw [List.filter_eq_nil_iff]
    intro a ha
    rw [List.mem_map] at ha
    obtain ⟨x, _, rfl⟩ := ha
    simp
    omega
  rw [h1, h2, List.append_nil, List.range_succ, List.getLast?_concat]

/-- Claim C10 (empty tentative name survives the Tabs Cross-Confirmer): when the
tabs text contains the row's canonical URL, a row whose tentative group name
is empty is never reclassified to `"Ungrouped"`: the interleaved encoding of
the empty name is the empty string, whose last occurrence before the URL is
the URL's own offset, which lies after every URL match that starts before it. -/
theorem empty_group_name_kept (tabs_text canonical_url : List Char) (i : Nat)
    (hfound : findSub? tabs_text canonical_url 0 = some i) :
    crossConfirmGroupName tabs_text [] canonical_url = [] := by
  have hi : i ≤ tabs_text.length := by
    have := (findSub?_eq_some hfound).2.1.1
    omega
  unfold crossConfirmGroupName
  simp only [hfound]
  simp only [show build_pipe_interleaved_text_for_group_name [] = [] from rfl,
    rfindSub?_nil tabs_text i hi]
  cases hl : (findUrlMatches (tabs_text.take i)).getLast? with
  | none => simp only [hl]
  | some lub =>
    simp only [hl]
    have hmem := mem_of_getLast?_eq_some hl
    obtain ⟨h1, h2⟩ := findUrlMatches_bounds hmem
    have hlen : (tabs_text.take i).length ≤ i := by
      simp [List.length_take]
    have hlt : lub.1 < i := by omega
    rw [if_pos hlt]

theorem empty_group_name_kept_witness :
    findSub? "http://aa Xab".toList "ab".toList 0 = some 11 ∧
    crossConfirmGroupName "http://aa Xab".toList [] "ab".toList = [] :=
  ⟨by decide, empty_group_name_kept "http://aa Xab".toList "ab".toList 11
    (by decide)⟩

/-! ## The assignment-map invariant feeding the emission proofs -/

/-- Every URL assigned to a tag occurrence at `p` starts before it ends and
ends before `p`. -/
def GoodAssigns (p : Nat) (lst : List UrlAssign) : Prop :=
  ∀ u ∈ lst, u.uStart < u.uEnd ∧ u.uEnd < p

/-- Every binding of the assignment map satisfies `GoodAssigns`. -/
def GoodAmap (amap : List ((List Char × Nat) × List UrlAssign)) : Prop :=
  ∀ kv ∈ amap, GoodAssigns kv.1.2 kv.2

theorem assocLookup_mem {κ β : Type} [DecidableEq κ]
    {l : List (κ × β)} {k : κ} {v : β}
    (h : assocLookup l k = some v) : (k, v) ∈ l := by
  induction l with
  | nil => simp [assocLookup] at h
  | cons kv rest ih =>
    unfold assocLookup at h
    by_cases hk : kv.1 = k
    · rw [if_pos hk] at h
      cases h
      rcases kv with ⟨k', v'⟩
      cases hk
      exact List.mem_cons_self _ _
    · rw [if_neg hk] at h
      exact List.mem_cons_of_mem _ (ih h)

theorem upsertAppend_good {amap : List ((List Char × Nat) × List UrlAssign)}
    {k : List Char × Nat} {u : UrlAssign}
    (hg : GoodAmap amap) (hu : u.uStart < u.uEnd ∧ u.uEnd < k.2) :
    GoodAmap (upsertAppend amap k u) := by
  induction amap with
  | nil =>
    intro kv hkv
    simp [upsertAppend] at hkv
    subst hkv
    intro u' hu'
    simp at hu'
    subst hu'
    exact hu
  | cons kv0 rest ih =>
    intro kv hkv
    unfold upsertAppend at hkv
    by_cases hk : kv0.1 = k
    · rw [if_pos hk] at hkv
      rcases List.mem_cons.mp hkv with rfl | hkv'
      · intro u' hu'
        rcases List.mem_append.mp hu' with h' | h'
        · exact hg kv0 (List.mem_cons_self _ _) u' h'
        · simp at h'
          subst h'
          show u'.uStart < u'.uEnd ∧ u'.uEnd < kv0.1.2
          rw [hk]
          exact hu
      · exact hg kv (List.mem_cons_of_mem _ hkv')
    · rw [if_neg hk] at hkv
      rcases List.mem_cons.mp hkv with h0 | hkv'
      · subst h0
        exact hg kv0 (List.mem_cons_self _ _)
      · exact ih (fun kv' hkv' => hg kv' (List.mem_cons_of_mem _ hkv')) kv hkv'

theorem takeWhile_boundary {q : Nat → Bool} :
    ∀ {l : List Nat} {v : Nat},
    l.get? (l.takeWhile q).length = some v → q v = false := by
  intro l
  induction l with
  | nil => intro v h; simp at h
  | cons a tl ih =>
    intro v h
    cases hq : q a
    · have he : (a :: tl).takeWhile q = [] := by
        simp [List.takeWhile_cons, hq]
      rw [he] at h
      simp at h
      rw [← h]
      exact hq
    · have hlen : ((a :: tl).takeWhile q).length
          = (tl.takeWhile q).length + 1 := by
        simp [List.takeWhile_cons, hq]
      rw [hlen, List.get?_cons_succ] at h
      exact ih h

theorem bisect_after {combined_positions : List Nat}
    {combined_tags : List (List Char)} {x p : Nat} {t : List Char}
    (h : find_first_tag_occurrence_after_abs_bisect combined_positions
      combined_tags x = some (p, t)) : x < p := by
  unfold find_first_tag_occurrence_after_abs_bisect bisectRight at h
  by_cases hlt : (combined_positions.takeWhile (fun q => q ≤ x)).length
      < combined_positions.length
  · rw [dif_pos hlt] at h
    have hp : combined_positions.get
        ⟨(combined_positions.takeWhile (fun q => q ≤ x)).length, hlt⟩ = p := by
      cases h
      rfl
    have hget : combined_positions.get?
        (combined_positions.takeWhile (fun q => q ≤ x)).length = some p := by
      rw [List.get?_eq_get hlt, hp]
    have hb := takeWhile_boundary hget
    simp at hb
    omega
  · rw [dif_neg hlt] at h
    cases h

theorem confirmRecordFor_bounds {full_text : List Char}
    {url_list : List (Nat × Nat × List Char)} {m : Nat × Nat × List Char}
    {rec : ConfirmedRec} (h : confirmRecordFor full_text url_list m = some rec) :
    rec.simpleStart = m.1 ∧ rec.simpleEnd = m.2.1 ∧
    rec.simpleEnd ≤ rec.interleavedEnd := by
  unfold confirmRecordFor at h
  cases h1 : tryConfirmAttempt full_text url_list m.1 m.2.1 m.2.2 m.2.2 with
  | some r1 =>
    rw [h1] at h
    cases h
    obtain ⟨-, idx, hfind, -, hrec⟩ := tryConfirmAttempt_eq_some_iff.mp h1
    subst hrec
    exact ⟨rfl, rfl, by
      have := (findSub?_eq_some hfind).1
      simp
      omega⟩
  | none =>
    rw [h1] at h
    obtain ⟨-, idx, hfind, -, hrec⟩ := tryConfirmAttempt_eq_some_iff.mp h
    subst hrec
    exact ⟨rfl, rfl, by
      have := (findSub?_eq_some hfind).1
      simp
      omega⟩

theorem confirmed_records_bounds {session_bytes : List Nat} {rec : ConfirmedRec}
    (h : rec ∈ confirmedInterleavedRecords session_bytes) :
    rec.simpleStart < rec.simpleEnd ∧ rec.simpleEnd ≤ rec.interleavedEnd := by
  unfold confirmedInterleavedRecords at h
  rw [List.mem_mergeSort] at h
  obtain ⟨m, hm, hrec⟩ := List.mem_filterMap.mp h
  obtain ⟨h1, h2, h3⟩ := confirmRecordFor_bounds hrec
  obtain ⟨h4, -⟩ := findUrlMatches_bounds hm
  exact ⟨by omega, h3⟩

theorem amap_good (session_bytes : List Nat) :
    GoodAmap (tagOccurrenceToAssignedUrls session_bytes) := by
  unfold tagOccurrenceToAssignedUrls
  have hgen : ∀ (recs : List ConfirmedRec)
      (acc : List ((List Char × Nat) × List UrlAssign)),
      (∀ rec ∈ recs, rec.simpleStart < rec.simpleEnd ∧
        rec.simpleEnd ≤ rec.interleavedEnd) →
      GoodAmap acc →
      GoodAmap (recs.foldl (fun acc rec =>
        match find_first_tag_occurrence_after_abs_bisect
            ((combinedTagOccurrencesAll session_bytes).map (fun x => x.1))
            ((combinedTagOccurrencesAll session_bytes).map (fun x => x.2))
            rec.interleavedEnd with
        | none => acc
        | some (tag_pos, tag_text) =>
          upsertAppend acc (tag_text, tag_pos)
            { uStart := rec.simpleStart
              uEnd := rec.simpleEnd
              canonicalUrl := rec.canonicalUrl
              rawUrl := rec.rawUrl }) acc) := by
    intro recs
    induction recs with
    | nil => intro acc _ hacc; exact hacc
    | cons rec rest ih =>
      intro acc hrecs hacc
      simp only [List.foldl_cons]
      apply ih
      · intro r hr
        exact hrecs r (List.mem_cons_of_mem _ hr)
      · cases hf : find_first_tag_occurrence_after_abs_bisect
            ((combinedTagOccurrencesAll session_bytes).map (fun x => x.1))
            ((combinedTagOccurrencesAll session_bytes).map (fun x => x.2))
            rec.interleavedEnd with
        | none => exact hacc
        | some pt =>
          rcases pt with ⟨tag_pos, tag_text⟩
          have hrec := hrecs rec (List.mem_cons_self _ _)
          have hafter := bisect_after hf
          exact upsertAppend_good hacc ⟨hrec.1, by
            show rec.simpleEnd < tag_pos
            omega⟩
  exact hgen _ [] (fun rec hr => confirmed_records_bounds hr)
    (fun kv hkv => absurd hkv (List.not_mem_nil _))

/-! ## The emission-state invariant (C1/C3) -/

/-- Each accepted row's URL starts before the row's tag occurrence ends. -/
def RowOk (r : Row) : Prop := r.urlStartPos < r.tagEndPos

/-- The invariant the emission loop maintains: rows chained by
`tagEnd < next urlStart`, pairwise ordered occurrences and strictly
increasing URL starts, every row well-formed, and the tracker equal to the
last accepted row's tag end. -/
def StInv (st : EmitState) : Prop :=
  st.rows.Chain' (fun a b => a.tagEndPos < b.urlStartPos) ∧
  st.rows.Pairwise (fun a b => a.tagOccurrencePos ≤ b.tagOccurrencePos ∧
    a.urlStartPos < b.urlStartPos) ∧
  (∀ r ∈ st.rows, RowOk r) ∧
  st.prevAcceptedTagEnd = st.rows.getLast?.map (fun r => r.tagEndPos)

theorem pairwise_getLast {α : Type} {R : α → α → Prop} :
    ∀ {l : List α} {x : α}, l.Pairwise R → l.getLast? = some x →
      ∀ a ∈ l, a = x ∨ R a x := by
  intro l
  induction l with
  | nil => intro x _ h; cases h
  | cons b tl ih =>
    intro x hp hlast a ha
    cases tl with
    | nil =>
      simp at hlast ha
      subst hlast
      subst ha
      exact Or.inl rfl
    | cons c tl' =>
      rw [List.getLast?_cons_cons] at hlast
      rcases List.mem_cons.mp ha with rfl | ha'
      · exact Or.inr ((List.pairwise_cons.mp hp).1 x
          (mem_of_getLast?_eq_some hlast))
      · exact ih (List.pairwise_cons.mp hp).2 hlast a ha'

theorem emitOne_inv {ctx : EmitCtx} {tag_text : List Char}
    {occ_pos tag_end_pos : Nat} {st : EmitState} {u : UrlAssign}
    (hst : StInv st)
    (hbound : ∀ r ∈ st.rows, r.tagOccurrencePos ≤ occ_pos)
    (hu : u.uStart < u.uEnd ∧ u.uEnd < occ_pos)
    (hte : occ_pos ≤ tag_end_pos) :
    StInv (emitOne ctx tag_text occ_pos tag_end_pos st u) ∧
    ∀ r ∈ (emitOne ctx tag_text occ_pos tag_end_pos st u).rows,
      r.tagOccurrencePos ≤ occ_pos := by
  obtain ⟨hC, hP, hOk, hprev⟩ := hst
  unfold emitOne
  cases hpa : st.prevAcceptedTagEnd with
  | none =>
    have hrows : st.rows = [] := by
      rw [hpa] at hprev
      cases hl : st.rows.getLast? with
      | none => exact List.getLast?_eq_none_iff.mp hl
      | some r => rw [hl] at hprev; cases hprev
    simp only [hrows]
    refine ⟨⟨?_, ?_, ?_, ?_⟩, ?_⟩
    · simp [List.chain'_singleton]
    · simp
    · intro r hr
      simp at hr
      subst hr
      show u.uStart < tag_end_pos
      omega
    · simp
    · intro r hr
      simp at hr
      subst hr
      show occ_pos ≤ occ_pos
      omega
  | some prev =>
    dsimp only
    by_cases hacc : u.uStart > prev
    · rw [if_pos hacc]
      rw [hpa] at hprev
      have hlast : ∃ lr, st.rows.getLast? = some lr ∧ prev = lr.tagEndPos := by
        cases hl : st.rows.getLast? with
        | none => rw [hl] at hprev; cases hprev
        | some lr =>
          rw [hl] at hprev
          exact ⟨lr, rfl, by cases hprev; rfl⟩
      obtain ⟨lr, hl, hpe⟩ := hlast
      have hlrmem : lr ∈ st.rows := mem_of_getLast?_eq_some hl
      have hdom : ∀ r ∈ st.rows, r.urlStartPos ≤ lr.urlStartPos := by
        intro r hr
        rcases pairwise_getLast hP hl r hr with rfl | hR
        · exact le_refl _
        · exact le_of_lt hR.2
      refine ⟨⟨?_, ?_, ?_, ?_⟩, ?_⟩
      · rw [List.chain'_append]
        refine ⟨hC, List.chain'_singleton _, ?_⟩
        intro x hx y hy
        simp at hy
        subst hy
        rw [hl] at hx
        simp at hx
        subst hx
        show lr.tagEndPos < u.uStart
        omega
      · rw [List.pairwise_append]
        refine ⟨hP, by simp, ?_⟩
        intro a ha b hb
        simp at hb
        subst hb
        refine ⟨hbound a ha, ?_⟩
        show a.urlStartPos < u.uStart
        have h1 := hdom a ha
        have h2 : lr.urlStartPos < lr.tagEndPos := hOk lr hlrmem
        omega
      · intro r hr
        rcases List.mem_append.mp hr with hr' | hr'
        · exact hOk r hr'
        · simp at hr'
          subst hr'
          show u.uStart < tag_end_pos
          omega
      · simp [List.getLast?_concat]
      · intro r hr
        rcases List.mem_append.mp hr with hr' | hr'
        · exact hbound r hr'
        · simp at hr'
          subst hr'
          show occ_pos ≤ occ_pos
          omega
    · rw [if_neg hacc]
      exact ⟨⟨hC, hP, hOk, hprev⟩, hbound⟩

theorem foldl_emitOne_inv {ctx : EmitCtx} {tag_text : List Char}
    {occ_pos tag_end_pos : Nat} :
    ∀ {lst : List UrlAssign} {st : EmitState},
    StInv st → (∀ r ∈ st.rows, r.tagOccurrencePos ≤ occ_pos) →
    (∀ u ∈ lst, u.uStart < u.uEnd ∧ u.uEnd < occ_pos) →
    occ_pos ≤ tag_end_pos →
    StInv (lst.foldl (emitOne ctx tag_text occ_pos tag_end_pos) st) ∧
    ∀ r ∈ (lst.foldl (emitOne ctx tag_text occ_pos tag_end_pos) st).rows,
      r.tagOccurrencePos ≤ occ_pos := by
  intro lst
  induction lst with
  | nil => intro st h1 h2 _ _; exact ⟨h1, h2⟩
  | cons u rest ih =>
    intro st h1 h2 h3 h4
    simp only [List.foldl_cons]
    obtain ⟨g1, g2⟩ := emitOne_inv h1 h2 (h3 u (List.mem_cons_self _ _)) h4
    exact ih g1 g2 (fun u' hu' => h3 u' (List.mem_cons_of_mem _ hu')) h4

theorem processOcc_inv {ctx : EmitCtx} {st : EmitState} {occ : Nat × List Char}
    (hamap : GoodAmap ctx.amap) (hst : StInv st)
    (hbound : ∀ r ∈ st.rows, r.tagOccurrencePos ≤ occ.1) :
    StInv (processOcc ctx st occ) ∧
    ∀ r ∈ (processOcc ctx st occ).rows, r.tagOccurrencePos ≤ occ.1 := by
  unfold processOcc
  by_cases hfin : occ.2 ∈ st.finishedTags
  · rw [if_pos hfin]
    exact ⟨hst, hbound⟩
  · rw [if_neg hfin]
    obtain ⟨hC, hP, hOk, hprev⟩ := hst
    cases hl : assocLookup ctx.amap (occ.2, occ.1) with
    | none => exact ⟨⟨hC, hP, hOk, hprev⟩, hbound⟩
    | some assigned =>
      cases assigned with
      | nil => exact ⟨⟨hC, hP, hOk, hprev⟩, hbound⟩
      | cons u0 arest =>
        have hkv := assocLookup_mem hl
        have hgood := hamap _ hkv
        have hgood' : ∀ u ∈ (u0 :: arest).mergeSort
            (fun a b => a.uStart ≤ b.uStart),
            u.uStart < u.uEnd ∧ u.uEnd < occ.1 := by
          intro u hu
          exact hgood u (List.mem_mergeSort.mp hu)
        exact foldl_emitOne_inv ⟨hC, hP, hOk, hprev⟩ hbound hgood'
          (Nat.le_add_right _ _)

theorem processList_inv {ctx : EmitCtx} (hamap : GoodAmap ctx.amap) :
    ∀ {occs : List (Nat × List Char)} {st : EmitState},
    occs.Pairwise (fun a b => a.1 ≤ b.1) →
    StInv st →
    (∀ r ∈ st.rows, ∀ o ∈ occs, r.tagOccurrencePos ≤ o.1) →
    StInv (processList ctx st occs) := by
  intro occs
  induction occs with
  | nil => intro st _ h _; exact h
  | cons o rest ih =>
    intro st hsorted hst hbound
    unfold processList
    simp only [List.foldl_cons]
    obtain ⟨g1, g2⟩ := processOcc_inv hamap hst
      (fun r hr => hbound r hr o (List.mem_cons_self _ _))
    have hsorted' := (List.pairwise_cons.mp hsorted).2
    have hhead := (List.pairwise_cons.mp hsorted).1
    exact ih hsorted' g1 (fun r hr o' ho' =>
      le_trans (g2 r hr) (hhead o' ho'))

theorem eligible_occurrences_sorted (session_bytes : List Nat) :
    (combinedTagOccurrenceList session_bytes).Pairwise
      (fun a b => a.1 ≤ b.1) := by
  unfold combinedTagOccurrenceList
  have h := @List.sorted_mergeSort (Nat × List Char)
    (fun a b => a.1 ≤ b.1)
    (fun a b c hab hbc => by
      simp only [decide_eq_true_eq] at *
      omega)
    (fun a b => by
      simp only [Bool.or_eq_true, decide_eq_true_eq]
      omega)
    ((sessionTagsAndGroups session_bytes).flatMap (fun ent =>
      let occs := (assocLookup (tagToAllOccurrences session_bytes)
        ent.sessionTabGroupTag).getD []
      if occs.length ≥ 5 then
        let fifth_pos := occs.getD 4 0
        (occs.filter (fun p => p ≥ fifth_pos)).map
          (fun p => (p, ent.sessionTabGroupTag))
      else []))
  exact h.imp (fun hab => by simpa using hab)

theorem initEmitState_inv (session_bytes : List Nat) :
    StInv (initEmitState session_bytes) := by
  refine ⟨?_, ?_, ?_, ?_⟩ <;> simp [initEmitState]

/-- Claim C1 (global monotonicity gate as a property of the emitted rows): in
every run, each emitted row after the first has its plain-URL start offset
strictly greater than the previously accepted row's tag-occurrence end offset
(`tagOccurrencePos + len(tag)`, recorded as `tagEndPos`); rejected candidates
are dropped without affecting the tracker, so the emitted sequence satisfies
`r_i.URL_StartPos > r_{i-1}.TagEndPos` for all consecutive pairs. -/
theorem rows_global_monotonicity_gate (session_bytes tabs_bytes : List Nat) :
    (producedRows session_bytes tabs_bytes).Chain'
      (fun a b => a.tagEndPos < b.urlStartPos) := by
  unfold producedRows
  have hamap : GoodAmap (emitCtx session_bytes tabs_bytes).amap :=
    amap_good session_bytes
  have h := processList_inv hamap (eligible_occurrences_sorted session_bytes)
    (initEmitState_inv session_bytes)
    (fun r hr => by simp [initEmitState] at hr)
  exact h.1

/-- Claim C3 (emitted-row order invariants): in every run, the emitted rows'
tag-occurrence offsets are non-decreasing in emission order, and their
plain-URL start offsets are strictly increasing globally across all rows. -/
theorem rows_order_invariants (session_bytes tabs_bytes : List Nat) :
    (producedRows session_bytes tabs_bytes).Pairwise
      (fun a b => a.tagOccurrencePos ≤ b.tagOccurrencePos ∧
        a.urlStartPos < b.urlStartPos) := by
  unfold producedRows
  have hamap : GoodAmap (emitCtx session_bytes tabs_bytes).amap :=
    amap_good session_bytes
  have h := processList_inv hamap (eligible_occurrences_sorted session_bytes)
    (initEmitState_inv session_bytes)
    (fun r hr => by simp [initEmitState] at hr)
  exact h.2.1

/-! ## Per-tag counter and termination facts (C4) -/

theorem countOf_setCount_self (counts : List (List Char × Nat))
    (t : List Char) (n : Nat) : countOf (setCount counts t n) t = n := by
  induction counts with
  | nil => simp [setCount, countOf, assocLookup]
  | cons kv rest ih =>
    obtain ⟨a, c⟩ := kv
    unfold setCount
    by_cases h : a = t
    · rw [if_pos h]
      simp [countOf, assocLookup, h]
    · rw [if_neg h]
      unfold countOf assocLookup
      rw [if_neg h]
      exact ih

theorem filter_append_single_ne {t tag : List Char} (hne : tag ≠ t)
    (rows : List Row) (row : Row) (hrow : row.tagText = tag) :
    (rows ++ [row]).filter (fun r => r.tagText == t)
      = rows.filter (fun r => r.tagText == t) := by
  rw [List.filter_append]
  have hb : (row.tagText == t) = false := by
    rw [hrow]
    exact beq_eq_false_iff_ne.mpr hne
  simp [List.filter_cons, hb]

theorem emitOne_preserves (ctx : EmitCtx) (tag_text : List Char)
    (occ_pos tag_end_pos : Nat) (st : EmitState) (u : UrlAssign)
    {t : List Char} (hne : tag_text ≠ t) :
    (emitOne ctx tag_text occ_pos tag_end_pos st u).finishedTags
      = st.finishedTags ∧
    ((emitOne ctx tag_text occ_pos tag_end_pos st u).rows).filter
      (fun r => r.tagText == t) = st.rows.filter (fun r => r.tagText == t) := by
  unfold emitOne
  cases st.prevAcceptedTagEnd with
  | none =>
    exact ⟨rfl, filter_append_single_ne hne st.rows _ rfl⟩
  | some prev =>
    dsimp only
    by_cases h : u.uStart > prev
    · rw [if_pos h]
      exact ⟨rfl, filter_append_single_ne hne st.rows _ rfl⟩
    · rw [if_neg h]
      exact ⟨rfl, rfl⟩

theorem foldl_emitOne_preserves (ctx : EmitCtx) (tag_text : List Char)
    (occ_pos tag_end_pos : Nat) {t : List Char} (hne : tag_text ≠ t) :
    ∀ (lst : List UrlAssign) (st : EmitState),
    (lst.foldl (emitOne ctx tag_text occ_pos tag_end_pos) st).finishedTags
      = st.finishedTags ∧
    ((lst.foldl (emitOne ctx tag_text occ_pos tag_end_pos) st).rows).filter
      (fun r => r.tagText == t) = st.rows.filter (fun r => r.tagText == t) := by
  intro lst
  induction lst with
  | nil => intro st; exact ⟨rfl, rfl⟩
  | cons u rest ih =>
    intro st
    simp only [List.foldl_cons]
    obtain ⟨e1, e2⟩ := emitOne_preserves ctx tag_text occ_pos tag_end_pos st u hne
    obtain ⟨f1, f2⟩ := ih (emitOne ctx tag_text occ_pos tag_end_pos st u)
    exact ⟨f1.trans e1, f2.trans e2⟩

theorem processOcc_preserves (ctx : EmitCtx) (st : EmitState)
    (occ : Nat × List Char) {t : List Char} (hfin : t ∈ st.finishedTags) :
    t ∈ (processOcc ctx st occ).finishedTags ∧
    ((processOcc ctx st occ).rows).filter (fun r => r.tagText == t)
      = st.rows.filter (fun r => r.tagText == t) := by
  unfold processOcc
  by_cases h : occ.2 ∈ st.finishedTags
  · rw [if_pos h]
    exact ⟨hfin, rfl⟩
  · rw [if_neg h]
    have hne : occ.2 ≠ t := fun he => h (he ▸ hfin)
    cases hl : assocLookup ctx.amap (occ.2, occ.1) with
    | none =>
      dsimp only
      refine ⟨?_, rfl⟩
      by_cases hc : countOf st.emptyCounts occ.2 + 1 ≥ 2
      · rw [if_pos hc]
        exact List.mem_cons_of_mem _ hfin
      · rw [if_neg hc]
        exact hfin
    | some assigned =>
      cases assigned with
      | nil =>
        dsimp only
        refine ⟨?_, rfl⟩
        by_cases hc : countOf st.emptyCounts occ.2 + 1 ≥ 2
        · rw [if_pos hc]
          exact List.mem_cons_of_mem _ hfin
        · rw [if_neg hc]
          exact hfin
      | cons u0 arest =>
        dsimp only
        obtain ⟨f1, f2⟩ := foldl_emitOne_preserves ctx occ.2 occ.1
          (occ.1 + occ.2.length) hne
          ((u0 :: arest).mergeSort (fun a b => a.uStart ≤ b.uStart))
          { st with emptyCounts := setCount st.emptyCounts occ.2 0 }
        constructor
        · rw [f1]
          exact hfin
        · rw [f2]

theorem processList_preserves (ctx : EmitCtx) {t : List Char} :
    ∀ (occs : List (Nat × List Char)) (st : EmitState),
    t ∈ st.finishedTags →
    ((processList ctx st occs).rows).filter (fun r => r.tagText == t)
      = st.rows.filter (fun r => r.tagText == t) := by
  intro occs
  induction occs with
  | nil => intro st _; rfl
  | cons o rest ih =>
    intro st hfin
    unfold processList
    simp only [List.foldl_cons]
    obtain ⟨p1, p2⟩ := processOcc_preserves ctx st o hfin
    exact (ih (processOcc ctx st o) p1).trans p2

theorem emitOne_emptyCounts (ctx : EmitCtx) (tag_text : List Char)
    (occ_pos tag_end_pos : Nat) (st : EmitState) (u : UrlAssign) :
    (emitOne ctx tag_text occ_pos tag_end_pos st u).emptyCounts
      = st.emptyCounts := by
  unfold emitOne
  cases st.prevAcceptedTagEnd with
  | none => rfl
  | some prev =>
    dsimp only
    by_cases h : u.uStart > prev
    · rw [if_pos h]
    · rw [if_neg h]

theorem foldl_emitOne_emptyCounts (ctx : EmitCtx) (tag_text : List Char)
    (occ_pos tag_end_pos : Nat) :
    ∀ (lst : List UrlAssign) (st : EmitState),
    (lst.foldl (emitOne ctx tag_text occ_pos tag_end_pos) st).emptyCounts
      = st.emptyCounts := by
  intro lst
  induction lst with
  | nil => intro st; rfl
  | cons u rest ih =>
    intro st
    simp only [List.foldl_cons]
    rw [ih, emitOne_emptyCounts]

/-- Claim C4 (per-tag termination rule): iterating the eligible occurrence
sequence, (i) an eligible occurrence of a non-finished tag with no assigned
URLs increments that tag's consecutive-empty counter, and the tag becomes
finished exactly when the counter reaches 2; (ii) an occurrence with
assignments resets the counter to 0; (iii) once a tag is finished, processing
any further occurrence sequence contributes no further rows for that tag,
even occurrences that do have assigned URLs being skipped. -/
theorem per_tag_termination (ctx : EmitCtx) (st : EmitState) (p : Nat)
    (t : List Char) :
    (t ∉ st.finishedTags → (assocLookup ctx.amap (t, p)).getD [] = [] →
      countOf (processOcc ctx st (p, t)).emptyCounts t
        = countOf st.emptyCounts t + 1 ∧
      (t ∈ (processOcc ctx st (p, t)).finishedTags ↔
        2 ≤ countOf st.emptyCounts t + 1)) ∧
    (t ∉ st.finishedTags → (assocLookup ctx.amap (t, p)).getD [] ≠ [] →
      countOf (processOcc ctx st (p, t)).emptyCounts t = 0) ∧
    (∀ occs : List (Nat × List Char), t ∈ st.finishedTags →
      ((processList ctx st occs).rows).filter (fun r => r.tagText == t)
        = st.rows.filter (fun r => r.tagText == t)) := by
  refine ⟨?_, ?_, ?_⟩
  · intro hfin hempty
    unfold processOcc
    dsimp only
    rw [if_neg hfin]
    cases hl : assocLookup ctx.amap (t, p) with
    | none =>
      simp only [hl]
      refine ⟨countOf_setCount_self _ _ _, ?_⟩
      by_cases hc : countOf st.emptyCounts t + 1 ≥ 2
      · rw [if_pos hc]
        simp only [ge_iff_le] at hc
        simp [hc]
      · rw [if_neg hc]
        simp only [ge_iff_le] at hc
        constructor
        · intro h
          exact absurd h hfin
        · intro h
          exact absurd h hc
    | some assigned =>
      cases assigned with
      | nil =>
        simp only [hl]
        refine ⟨countOf_setCount_self _ _ _, ?_⟩
        by_cases hc : countOf st.emptyCounts t + 1 ≥ 2
        · rw [if_pos hc]
          simp only [ge_iff_le] at hc
          simp [hc]
        · rw [if_neg hc]
          simp only [ge_iff_le] at hc
          constructor
          · intro h
            exact absurd h hfin
          · intro h
            exact absurd h hc
      | cons u0 arest =>
        rw [hl] at hempty
        simp at hempty
  · intro hfin hnonempty
    unfold processOcc
    dsimp only
    rw [if_neg hfin]
    cases hl : assocLookup ctx.amap (t, p) with
    | none =>
      rw [hl] at hnonempty
      simp at hnonempty
    | some assigned =>
      cases assigned with
      | nil =>
        rw [hl] at hnonempty
        simp at hnonempty
      | cons u0 arest =>
        simp only [hl]
        rw [foldl_emitOne_emptyCounts]
        exact countOf_setCount_self _ _ _
  · intro occs hfin
    exact processList_preserves ctx occs st hfin

/-- Emission context with no assignments, for the C4 witness. -/
def c4CtxEmpty : EmitCtx :=
  { fullText := [], tabsText := [], tagToGroupName := [], amap := [] }

/-- Emission context assigning one URL to tag `a` at occurrence 0, for the C4
witness. -/
def c4CtxAssigned : EmitCtx :=
  { fullText := [], tabsText := [], tagToGroupName := []
    amap := [((['a'], 0),
      [{ uStart := 5, uEnd := 6, canonicalUrl := [], rawUrl := [] }])] }

/-- A state in which tag `a` is unfinished with counter 0, for the C4
witness. -/
def c4St : EmitState :=
  { emptyCounts := [(['a'], 0)], finishedTags := []
    prevAcceptedTagEnd := none, rows := [] }

/-- A state in which tag `a` is already finished, for the C4 witness. -/
def c4StFin : EmitState :=
  { emptyCounts := [], finishedTags := [['a']]
    prevAcceptedTagEnd := none, rows := [] }

theorem per_tag_termination_witness :
    (countOf (processOcc c4CtxEmpty c4St (0, ['a'])).emptyCounts ['a']
        = countOf c4St.emptyCounts ['a'] + 1 ∧
      (['a'] ∈ (processOcc c4CtxEmpty c4St (0, ['a'])).finishedTags ↔
        2 ≤ countOf c4St.emptyCounts ['a'] + 1)) ∧
    countOf (processOcc c4CtxAssigned c4St (0, ['a'])).emptyCounts ['a'] = 0 ∧
    ((processList c4CtxEmpty c4StFin [(0, ['a'])]).rows).filter
        (fun r => r.tagText == ['a'])
      = c4StFin.rows.filter (fun r => r.tagText == ['a']) :=
  ⟨(per_tag_termination c4CtxEmpty c4St 0 ['a']).1 (by decide) (by decide),
   (per_tag_termination c4CtxAssigned c4St 0 ['a']).2.1 (by decide) (by decide),
   (per_tag_termination c4CtxEmpty c4StFin 0 ['a']).2.2 [(0, ['a'])] (by decide)⟩
